import Mathlib

/-! # Transaction pool and solo packer of thor

A shallow embedding of `txpool/tx_pool.go` (`TxPool.add`, `TxPool.wash`,
`TxPool.Remove`, `isChainSynced`) and of `cmd/thor/solo/solo.go`
(`reCalculateGasLimit`, the adoption loop and the deferred cleanup of
`Solo.packing`).

The pool is a value that is passed through every operation.  The
collaborators the pool consumes through interfaces (chain, state creator,
executability check, block list, clock) are the fields of `Env`.  The event
feed is the list of events sent so far.  Go machine integers are `Nat`/`Int`
with explicit wrap-around where the source can overflow.
-/

namespace Thor

/-! ## Data model -/

/-- The part of `tx.Transaction` the pool reads. `origin` is the first result
of `Origin()`; the pool discards the second. -/
structure Transaction where
  hash : Nat
  id : Nat
  origin : Nat
  chainTag : Nat
  size : Nat
  features : Nat
deriving DecidableEq, Repr

/-- Result of `runtime.ResolveTransaction`, of which the pool reads the origin. -/
structure Resolved where
  origin : Nat
  intrinsicGas : Nat
deriving DecidableEq, Repr

/-- The `txObject` wrapper: a transaction, its resolution and the cached fields. -/
structure TxObject where
  tx : Transaction
  resolved : Resolved
  timeAdded : Int
  executable : Bool
  overallGasPrice : Nat
deriving DecidableEq, Repr

/-- `txObject.Hash()`, promoted from the embedded transaction. -/
def TxObject.Hash (o : TxObject) : Nat := o.tx.hash

/-- `txObject.Origin()`. -/
def TxObject.Origin (o : TxObject) : Nat := o.resolved.origin

/-- `Options` of the pool (the block list paths play no part here). -/
structure Options where
  Limit : Int
  LimitPerAccount : Int
  MaxLifetime : Int
deriving DecidableEq, Repr

/-- `TxEvent`: `Executable` is a nullable pointer in the source. -/
structure TxEvent where
  Tx : Transaction
  Executable : Option Bool
deriving DecidableEq, Repr

/-- The two error shapes of the pool, and an error passed through unchanged
(the state creator's). -/
inductive PoolError where
  | badTxError (msg : String)
  | txRejectedError (msg : String)
  | passed (msg : String)
deriving DecidableEq, Repr

/-- `maxTxSize = 64 * 1024`. -/
def maxTxSize : Nat := 64 * 1024

/-- Two's-complement wrap of a mathematical integer into `int64`. -/
def wrapInt64 (x : Int) : Int := (x + 2 ^ 63) % 2 ^ 64 - 2 ^ 63

/-- Conversion `uint64(x)` of an `int64`. -/
def toUint64 (x : Int) : Nat := (x % 2 ^ 64).toNat

/-! ## The index (`txObjectMap`) -/

/-- Modelled from the spec: the type `txObjectMap`, whose file
`tx_object_map.go` is missing.  Spec 3 and 4.2: a mapping from hash to object
that preserves insertion order, with a per-origin count.  The count is read
off the stored objects. -/
structure txObjectMap where
  objs : List TxObject
deriving DecidableEq, Repr

/-- Modelled from the spec: `newTxObjectMap`, the empty index. -/
def newTxObjectMap : txObjectMap := ⟨[]⟩

/-- Modelled from the spec: `contains(hash)`. -/
def txObjectMap.Contains (m : txObjectMap) (h : Nat) : Bool :=
  m.objs.any (fun o => o.Hash == h)

/-- Modelled from the spec: `len()`. -/
def txObjectMap.Len (m : txObjectMap) : Nat := m.objs.length

/-- Modelled from the spec: `to_objects()`, the insertion-ordered listing. -/
def txObjectMap.ToTxObjects (m : txObjectMap) : List TxObject := m.objs

/-- Modelled from the spec: `to_txs()`. -/
def txObjectMap.ToTxs (m : txObjectMap) : List Transaction := m.objs.map (·.tx)

/-- Modelled from the spec: the per-origin count of the index. -/
def txObjectMap.quota (m : txObjectMap) (origin : Nat) : Nat :=
  (m.objs.filter (fun o => o.Origin == origin)).length

/-- Modelled from the spec: the rejection reason of a full per-origin quota
("a distinct rejection reason"). -/
def quotaExceeded : String := "account quota exceeded"

/-- Modelled from the spec: `add(obj, limit_per_account)`: a duplicate hash is
no error and no change; it fails if `count(obj.origin) == limit_per_account`;
otherwise the object is inserted last. -/
def txObjectMap.Add (m : txObjectMap) (txObj : TxObject) (limitPerAccount : Int) :
    Except String txObjectMap :=
  if m.Contains txObj.Hash then .ok m
  else if (m.quota txObj.Origin : Int) = limitPerAccount then .error quotaExceeded
  else .ok ⟨m.objs ++ [txObj]⟩

/-- Modelled from the spec: `remove(hash) → bool`, true if present. -/
def txObjectMap.Remove (m : txObjectMap) (h : Nat) : Bool × txObjectMap :=
  (m.Contains h, ⟨m.objs.filter (fun o => !(o.Hash == h))⟩)

/-- Index invariant 1 of the spec: hashes are unique. -/
def txObjectMap.WF (m : txObjectMap) : Prop := (m.objs.map TxObject.Hash).Nodup

instance (m : txObjectMap) : Decidable m.WF := by
  unfold txObjectMap.WF; infer_instance

/-! ## Collaborators -/

/-- What the pool reads from its collaborators during one call. -/
structure Env where
  /-- `p.chain.Tag()` -/
  chainTag : Nat
  /-- `headBlock.Timestamp()` -/
  headTimestamp : Nat
  /-- `headBlock.TxsFeatures()` -/
  headTxsFeatures : Nat
  /-- `time.Now().Unix()` -/
  nowUnix : Int
  /-- `time.Now().UnixNano()` -/
  nowNano : Int
  /-- `thor.BlockInterval` -/
  blockInterval : Nat
  /-- `thor.IsOriginBlocked` -/
  isOriginBlocked : Nat → Bool
  /-- `p.blocklist.Contains` -/
  blocklist : Nat → Bool
  /-- `newTx.TestFeatures(supported)`: the error, if any -/
  testFeatures : Transaction → Nat → Option String
  /-- `runtime.ResolveTransaction` -/
  resolveTransaction : Transaction → Except String Resolved
  /-- `p.stateCreator.NewState(headBlock.StateRoot())`: the error, if any -/
  newState : Option String
  /-- `txObj.Executable(p.chain, state, headBlock)` -/
  executable : TxObject → Except String Bool
  /-- `txObj.OverallGasPrice(baseGasPrice, headBlock.Number(), seeker.GetID)` -/
  overallGasPrice : Transaction → Nat
  /-- `state.Err()` after the traversal -/
  stateErr : Option String
  /-- `seeker.Err()` after the traversal -/
  seekerErr : Option String

/-- The pool: options, index, counter, published snapshot and the feed. -/
structure TxPool where
  options : Options
  all : txObjectMap
  addedAfterWash : Nat
  executables : Option (List Transaction)
  txFeed : List TxEvent
deriving DecidableEq, Repr

/-- `isChainSynced` on `uint64`: the first subtraction wraps. -/
def isChainSynced (blockInterval nowTimestamp blockTimestamp : Nat) : Bool :=
  let timeDiff := (nowTimestamp + 2 ^ 64 - blockTimestamp) % 2 ^ 64
  let timeDiff := if blockTimestamp > nowTimestamp then blockTimestamp - nowTimestamp else timeDiff
  decide (timeDiff < blockInterval * 6)

/-- Modelled from the spec: `resolveTx`, whose file `tx_object.go` is missing.
Spec 4.3 step 6 and spec 3: resolution failures are returned; otherwise the
object owns the transaction, with `time_added` the time of insertion. -/
def resolveTx (env : Env) (tx : Transaction) : Except String TxObject :=
  match env.resolveTransaction tx with
  | .error e => .error e
  | .ok r => .ok ⟨tx, r, env.nowNano, false, 0⟩

/-- `atomic.AddUint32(&p.addedAfterWash, 1)`. -/
def addUint32 (x d : Nat) : Nat := (x + d) % 2 ^ 32

/-! ## `TxPool.add` -/

/-- `TxPool.add`: the returned error (`none` is `nil`) and the pool afterwards.
The object handed to the index is shared with it, so the later assignment
`txObj.executable = executable` is visible in the index; the embedding stores
the object with the field already set. -/
def TxPool.add (env : Env) (p : TxPool) (newTx : Transaction) (rejectNonexecutable : Bool) :
    Option PoolError × TxPool :=
  if p.all.Contains newTx.hash then (none, p)
  else if env.isOriginBlocked newTx.origin || env.blocklist newTx.origin then (none, p)
  else if newTx.chainTag ≠ env.chainTag then (some (.badTxError "chain tag mismatch"), p)
  else if newTx.size > maxTxSize then (some (.txRejectedError "size too large"), p)
  else
    match env.testFeatures newTx env.headTxsFeatures with
    | some e => (some (.txRejectedError e), p)
    | none =>
      match resolveTx env newTx with
      | .error e => (some (.badTxError e), p)
      | .ok txObj =>
        if isChainSynced env.blockInterval (toUint64 env.nowUnix) env.headTimestamp then
          match env.newState with
          | some e => (some (.passed e), p)
          | none =>
            match env.executable txObj with
            | .error e => (some (.txRejectedError e), p)
            | .ok executable =>
              if rejectNonexecutable && !executable then
                (some (.txRejectedError "tx is not executable"), p)
              else
                match p.all.Add { txObj with executable := executable } p.options.LimitPerAccount with
                | .error e => (some (.txRejectedError e), p)
                | .ok all =>
                  (none, { p with
                    all := all
                    txFeed := p.txFeed ++ [⟨newTx, some executable⟩]
                    addedAfterWash := addUint32 p.addedAfterWash 1 })
        else
          if (p.all.Len : Int) ≥ p.options.Limit then
            (some (.txRejectedError "pool is full"), p)
          else
            match p.all.Add txObj p.options.LimitPerAccount with
            | .error e => (some (.txRejectedError e), p)
            | .ok all =>
              (none, { p with
                all := all
                txFeed := p.txFeed ++ [⟨newTx, none⟩]
                addedAfterWash := addUint32 p.addedAfterWash 1 })

/-- `TxPool.Add`. -/
def TxPool.Add (env : Env) (p : TxPool) (newTx : Transaction) : Option PoolError × TxPool :=
  p.add env newTx false

/-- `TxPool.StrictlyAdd`. -/
def TxPool.StrictlyAdd (env : Env) (p : TxPool) (newTx : Transaction) :
    Option PoolError × TxPool :=
  p.add env newTx true

/-! ## `TxPool.wash` -/

/-- A write through one of the pointers the index shares with its listing:
the stored object with the same hash is replaced. -/
def txObjectMap.store (m : txObjectMap) (o : TxObject) : txObjectMap :=
  ⟨m.objs.map (fun x => if x.Hash == o.Hash then o else x)⟩

/-- Modelled from the spec: `sortTxObjsByOverallGasPriceDesc`, whose file
`tx_object.go` is missing.  Spec 4.4 step 6: sort by `overall_gas_price`
descending, tie-break by insertion order (stable sort). -/
def sortTxObjsByOverallGasPriceDesc (txObjs : List TxObject) : List TxObject :=
  txObjs.insertionSort (fun a b => a.overallGasPrice ≥ b.overallGasPrice)

/-- The three results of `wash`; `err = none` is `nil`. -/
structure WashReturn where
  executables : List Transaction
  removed : Int
  err : Option String
deriving DecidableEq, Repr

/-- The local slices of `wash` during the traversal, and the index, whose
objects the traversal writes to. -/
structure WashAcc where
  toRemove : List TxObject
  executableObjs : List TxObject
  nonExecutableObjs : List TxObject
  all : txObjectMap
deriving DecidableEq, Repr

/-- The `out of lifetime` test, in `int64` arithmetic. -/
def outOfLifetime (env : Env) (options : Options) (txObj : TxObject) : Bool :=
  decide (env.nowNano > wrapInt64 (txObj.timeAdded + options.MaxLifetime))

/-- One iteration of `for _, txObj := range all` in `wash`. -/
def washVisit (env : Env) (options : Options) (acc : WashAcc) (txObj : TxObject) : WashAcc :=
  if env.isOriginBlocked txObj.Origin || env.blocklist txObj.Origin then
    { acc with toRemove := acc.toRemove ++ [txObj] }
  else if outOfLifetime env options txObj then
    { acc with toRemove := acc.toRemove ++ [txObj] }
  else
    match env.executable txObj with
    | .error _ => { acc with toRemove := acc.toRemove ++ [txObj] }
    | .ok true =>
      let txObj := { txObj with overallGasPrice := env.overallGasPrice txObj.tx }
      { acc with executableObjs := acc.executableObjs ++ [txObj], all := acc.all.store txObj }
    | .ok false => { acc with nonExecutableObjs := acc.nonExecutableObjs ++ [txObj] }

/-- The traversal of `wash` over the listing taken at its start. -/
def washTraverse (env : Env) (p : TxPool) : WashAcc :=
  p.all.ToTxObjects.foldl (washVisit env p.options) ⟨[], [], [], p.all⟩

/-- The error branch of the deferred function of `wash`: the loop
`for i, txObj := range all` from index `i` on, over the rest of the listing. -/
def washCut (limit : Int) (n : Nat) : Nat → List TxObject → Int × txObjectMap → Int × txObjectMap
  | _, [], st => st
  | i, txObj :: rest, (removed, m) =>
    if (n : Int) - (i : Int) ≤ limit then (removed, m)
    else washCut limit n (i + 1) rest (removed + 1, (m.Remove txObj.Hash).2)

/-- The deferred function of `wash`, run after the results have been set:
it reads `err`, edits the index and writes the named result `removed`. -/
def washDeferred (limit : Int) (all toRemove : List TxObject) (index : txObjectMap)
    (removed : Int) (err : Option String) : Int × txObjectMap :=
  match err with
  | some _ => washCut limit all.length 0 all (removed, index)
  | none => ((toRemove.length : Int), toRemove.foldl (fun m txObj => (m.Remove txObj.Hash).2) index)

/-- The last loop of `wash`: builds `executables`, writes `executable = true`
to the objects that were not executable before and collects them for the feed. -/
def washCollect : List TxObject → List Transaction × List Transaction × txObjectMap →
    List Transaction × List Transaction × txObjectMap
  | [], st => st
  | obj :: rest, (executables, toBroadcast, m) =>
    if !obj.executable then
      washCollect rest (executables ++ [obj.tx], toBroadcast ++ [obj.tx],
        m.store { obj with executable := true })
    else
      washCollect rest (executables ++ [obj.tx], toBroadcast, m)

/-- A `return` of `wash` with the deferred function applied. -/
def washReturn (p : TxPool) (toRemove : List TxObject) (index : txObjectMap)
    (txFeed : List TxEvent) (executables : List Transaction) (err : Option String) :
    WashReturn × TxPool :=
  let r := washDeferred p.options.Limit p.all.ToTxObjects toRemove index 0 err
  (⟨executables, r.1, err⟩, { p with all := r.2, txFeed := txFeed })

/-- Pool-limit enforcement of `wash` (`remove over limit txs, from
non-executables to low priced`): the new `toRemove` and `executableObjs`.
The result is `none` where the slice expression `executableObjs[limit:]`
panics, which is the case of a negative limit. -/
def washEnforce (limit : Int) (toRemove executableObjs nonExecutableObjs : List TxObject) :
    Option (List TxObject × List TxObject) :=
  if (executableObjs.length : Int) > limit then
    if limit < 0 then none
    else
      some (toRemove ++ nonExecutableObjs ++ executableObjs.drop limit.toNat,
        executableObjs.take limit.toNat)
  else if (executableObjs.length : Int) + (nonExecutableObjs.length : Int) > limit then
    some (toRemove ++ nonExecutableObjs.drop (limit - (executableObjs.length : Int)).toNat,
      executableObjs)
  else
    some (toRemove, executableObjs)

/-- `TxPool.wash`. The result is `none` where the source panics; otherwise the
three results and the pool afterwards. -/
def TxPool.wash (env : Env) (p : TxPool) : Option (WashReturn × TxPool) :=
  match env.newState with
  | some e => some (washReturn p [] p.all p.txFeed [] (some ("new state: " ++ e)))
  | none =>
    let acc := washTraverse env p
    match env.stateErr with
    | some e => some (washReturn p acc.toRemove acc.all p.txFeed [] (some ("state: " ++ e)))
    | none =>
      match env.seekerErr with
      | some e => some (washReturn p acc.toRemove acc.all p.txFeed [] (some ("seeker: " ++ e)))
      | none =>
        match washEnforce p.options.Limit acc.toRemove
            (sortTxObjsByOverallGasPriceDesc acc.executableObjs) acc.nonExecutableObjs with
        | none => none
        | some (toRemove, executableObjs) =>
          let c := washCollect executableObjs ([], [], acc.all)
          some (washReturn p toRemove c.2.2
            (p.txFeed ++ c.2.1.map (fun tx => ⟨tx, some true⟩)) c.1 none)

/-! ## Classification of the objects by the traversal of `wash` -/

/-- The origin is in the builtin blocked set or in the block list. -/
def originBlocked (env : Env) (txObj : TxObject) : Bool :=
  env.isOriginBlocked txObj.Origin || env.blocklist txObj.Origin

/-- The object is neither blocked nor out of lifetime and its executability
evaluates to `true` without error. -/
def washExecutable (env : Env) (options : Options) (txObj : TxObject) : Bool :=
  !originBlocked env txObj && !outOfLifetime env options txObj &&
    (match env.executable txObj with
     | .ok true => true
     | _ => false)

/-- The object is neither blocked nor out of lifetime and its executability
evaluates to `false` without error. -/
def washNonExecutable (env : Env) (options : Options) (txObj : TxObject) : Bool :=
  !originBlocked env txObj && !outOfLifetime env options txObj &&
    (match env.executable txObj with
     | .ok false => true
     | _ => false)

/-- The object is blocked, out of lifetime, or its executability check fails. -/
def washedOut (env : Env) (options : Options) (txObj : TxObject) : Bool :=
  originBlocked env txObj || outOfLifetime env options txObj ||
    (match env.executable txObj with
     | .error _ => true
     | _ => false)

/-- The object with its priority score recomputed. -/
def withPrice (env : Env) (txObj : TxObject) : TxObject :=
  { txObj with overallGasPrice := env.overallGasPrice txObj.tx }

/-! ## Example data -/

/-- A transaction of origin `o` with hash and id `h`, on chain tag 1. -/
def mkTx (h o : Nat) : Transaction := ⟨h, h, o, 1, 100, 0⟩

/-- A stored object for `mkTx h o`, added at time 0. -/
def mkObj (h o : Nat) : TxObject := ⟨mkTx h o, ⟨o, 21000⟩, 0, false, 0⟩

/-- An environment: origins 666 and 777 are blocked, a transaction is
executable when its id is even, its price is its id, the chain is synced. -/
def demoEnv : Env where
  chainTag := 1
  headTimestamp := 1000
  headTxsFeatures := 0
  nowUnix := 1000
  nowNano := 50
  blockInterval := 10
  isOriginBlocked := fun a => a == 666
  blocklist := fun a => a == 777
  testFeatures := fun tx supported =>
    if tx.features ≤ supported then none else some "unsupported features"
  resolveTransaction := fun tx =>
    if tx.size == 0 then .error "empty" else .ok ⟨tx.origin, 21000⟩
  newState := none
  executable := fun o => if o.tx.id == 13 then .error "broken" else .ok (o.tx.id % 2 == 0)
  overallGasPrice := fun tx => tx.id
  stateErr := none
  seekerErr := none

/-- A pool with limit 2 holding five objects. -/
def demoPool : TxPool where
  options := ⟨2, 2, 100⟩
  all := ⟨[mkObj 2 1, mkObj 3 1, mkObj 4 2, mkObj 6 777, mkObj 8 3]⟩
  addedAfterWash := 0
  executables := none
  txFeed := []

/-- The result of washing `demoPool` under `demoEnv`. -/
def demoWashed : WashReturn × TxPool :=
  (demoPool.wash demoEnv).getD (⟨[], 0, none⟩, demoPool)

/-- The executable survivors of the traversal, in insertion order, with their
priority score recomputed. -/
def washSurvivors (env : Env) (p : TxPool) : List TxObject :=
  (p.all.ToTxObjects.filter (washExecutable env p.options)).map (withPrice env)

/-- The pool of the tests (`newPool`): limit 10, two objects per account, a
lifetime of one hour, nothing added yet. -/
def newPool : TxPool where
  options := ⟨10, 2, 3600 * 10 ^ 9⟩
  all := newTxObjectMap
  addedAfterWash := 0
  executables := none
  txFeed := []

/-! ## The adoption loop of `Solo.packing` -/

/-- Modelled from the spec: the errors of `flow.Adopt` as `packing` tells them
apart (package `packer` is missing): gas limit reached, not adoptable now,
any other error. -/
inductive AdoptError where
  | gasLimitReached
  | txNotAdoptableNow
  | other (msg : String)
deriving DecidableEq, Repr

/-- Modelled from the spec: `packer.IsGasLimitReached`; a `nil` error is not one. -/
def IsGasLimitReached (err : Option AdoptError) : Bool :=
  err == some .gasLimitReached

/-- Modelled from the spec: `packer.IsTxNotAdoptableNow`; a `nil` error is not one. -/
def IsTxNotAdoptableNow (err : Option AdoptError) : Bool :=
  err == some .txNotAdoptableNow

/-- The variables of the adoption loop: the flow, `txsToRemove`, and the
transactions passed to `flow.Adopt` so far, in order. -/
structure Adoption (F : Type) where
  flow : F
  txsToRemove : List Transaction
  offered : List Transaction

/-- The loop `for _, tx := range pendingTxs` of `packing`. `flow.Adopt` is the
parameter `adopt`. The `break` of the first case ends the `switch` statement
it stands in, and the loop goes on with the next transaction. -/
def adoptLoop {F : Type} (adopt : F → Transaction → F × Option AdoptError) :
    List Transaction → Adoption F → Adoption F
  | [], st => st
  | tx :: rest, st =>
    let r := adopt st.flow tx
    let st := { st with flow := r.1, offered := st.offered ++ [tx] }
    if IsGasLimitReached r.2 then
      adoptLoop adopt rest st
    else if IsTxNotAdoptableNow r.2 then
      adoptLoop adopt rest st
    else
      adoptLoop adopt rest { st with txsToRemove := st.txsToRemove ++ [tx] }

/-- A flow that counts the gas used, with a gas limit of 21000: the
transaction of hash 3 is refused with an error of its own, any other is
adopted while the limit is not reached (each uses 21000). -/
def demoAdopt (used : Nat) (tx : Transaction) : Nat × Option AdoptError :=
  if tx.hash == 3 then (used, some (.other "known tx"))
  else if used + 21000 > 21000 then (used, some .gasLimitReached)
  else (used + 21000, none)

/-! ## `float64` arithmetic and `reCalculateGasLimit` -/

/-- The quotient `N / D` rounded to the nearest natural number, a tie to the
even one. -/
def roundHalfEven (N D : Nat) : Nat :=
  let q := N / D
  let r := N % D
  if 2 * r < D then q
  else if D < 2 * r then q + 1
  else if q % 2 = 0 then q
  else q + 1

/-- The position of the leading bit of `n`, by halving at most `fuel` times. -/
def log2Aux : Nat → Nat → Nat
  | 0, _ => 0
  | fuel + 1, n => if n < 2 then 0 else log2Aux fuel (n / 2) + 1

/-- The position of the leading bit of `n`: `2 ^ log2 n ≤ n < 2 ^ (log2 n + 1)`
for positive `n`. -/
def log2 (n : Nat) : Nat := log2Aux n n

/-- The exponent `e` for which `n / d * 2 ^ (-e)` lies in `[2 ^ 52, 2 ^ 53)`,
for positive `n` and `d`. -/
def exp53 (n d : Nat) : Int :=
  let e0 : Int := (log2 n : Int) - (log2 d : Int) - 52
  if n * 2 ^ (-e0).toNat < 2 ^ 52 * (d * 2 ^ e0.toNat) then e0 - 1 else e0

/-- Significand `m` and exponent `e` of the binary floating-point number of 53
significant bits nearest to `n / d * 2 ^ s` (ties to even), for `d > 0`; the
number is `m * 2 ^ e`.  The exponent is not bounded: the values that
`reCalculateGasLimit` computes from 64-bit integers stay far inside the
normal range of `float64`. -/
def round53 (n d : Nat) (s : Int) : Nat × Int :=
  if n = 0 then (0, 0)
  else
    (roundHalfEven (n * 2 ^ (-exp53 n d).toNat) (d * 2 ^ (exp53 n d).toNat), exp53 n d + s)

/-- A finite `float64`: the number `m * 2 ^ e`, negated when `neg`. -/
structure F64 where
  neg : Bool
  m : Nat
  e : Int
deriving DecidableEq, Repr

/-- The rational number a finite `float64` stands for. -/
def F64.val (x : F64) : ℚ := (if x.neg then -1 else 1) * (x.m : ℚ) * (2 : ℚ) ^ x.e

/-- The `float64` nearest to the quotient `n / d` of natural numbers; a
constant such as `1.01` is converted this way. -/
def F64.ofRatio (n d : Nat) : F64 := ⟨false, (round53 n d 0).1, (round53 n d 0).2⟩

/-- Conversion `float64(x)` of a `uint64`. -/
def F64.ofNat (x : Nat) : F64 := F64.ofRatio x 1

/-- Conversion `float64(x)` of an `int64`. -/
def F64.ofInt (x : Int) : F64 :=
  ⟨decide (x < 0), (round53 x.natAbs 1 0).1, (round53 x.natAbs 1 0).2⟩

/-- The product `x * y` of `float64`. -/
def F64.mul (x y : F64) : F64 :=
  ⟨xor x.neg y.neg, (round53 (x.m * y.m) 1 (x.e + y.e)).1, (round53 (x.m * y.m) 1 (x.e + y.e)).2⟩

/-- The quotient `x / y` of `float64`; `none` where it is not finite (`y = 0`). -/
def F64.div (x y : F64) : Option F64 :=
  if y.m = 0 then none
  else some ⟨xor x.neg y.neg, (round53 x.m y.m (x.e - y.e)).1, (round53 x.m y.m (x.e - y.e)).2⟩

/-- The integer part of the absolute value. -/
def F64.truncAbs (x : F64) : Nat :=
  if 0 ≤ x.e then x.m * 2 ^ x.e.toNat else x.m / 2 ^ (-x.e).toNat

/-- Conversion `int64(x)` of a `float64`: the fraction is discarded; `none`
where the value does not fit, where Go leaves the result to the
implementation. -/
def F64.toInt64 (x : F64) : Option Int :=
  let t : Int := if x.neg then -(x.truncAbs : Int) else (x.truncAbs : Int)
  if -2 ^ 63 ≤ t ∧ t < 2 ^ 63 then some t else none

/-- Conversion `uint64(x)` of a `float64`: the fraction is discarded; `none`
where the value does not fit, where Go leaves the result to the
implementation. -/
def F64.toUint64 (x : F64) : Option Nat :=
  if x.neg ∧ x.truncAbs ≠ 0 then none
  else if x.truncAbs < 2 ^ 64 then some x.truncAbs
  else none

/-- The local `ratio` of `reCalculateGasLimit`:
`int64(float64(b) / float64(a) * 100)`. -/
def gasLimitRatio (a b : Int) : Option Int :=
  match F64.div (F64.ofInt b) (F64.ofInt a) with
  | none => none
  | some q => F64.toInt64 (F64.mul q (F64.ofNat 100))

/-- `reCalculateGasLimit`, on `int64` durations in nanoseconds and a `uint64`
gas limit. The result is `none` where a conversion has no defined result. -/
def reCalculateGasLimit (used expected : Int) (nowGasLimit : Nat) : Option Nat :=
  let a := used
  let b := expected
  if a ≤ b then
    F64.toUint64 (F64.mul (F64.ofNat nowGasLimit) (F64.ofRatio 101 100))
  else
    -- a > b
    match gasLimitRatio a b with
    | none => none
    | some ratio => some (toUint64 ratio * nowGasLimit % 2 ^ 64 / 100)

/-- The gas-limit controller as the specification words it: `⌊G * 1.01⌋`,
that is `⌊101 * G / 100⌋`, when `a ≤ b`, otherwise `⌊r * G / 100⌋` with
`r = ⌊100 * b / a⌋`, in unbounded integers (the division of integers by a
positive number rounds down). -/
def reCalculateGasLimitSpec (a b : Int) (G : Nat) : Int :=
  if a ≤ b then (101 * (G : Int)) / 100
  else ((100 * b) / a) * (G : Int) / 100

/-! ## `TxPool.Remove` and the deferred cleanup of `Solo.packing` -/

/-- `TxPool.Remove`: removes the transaction of hash `txHash`; the id is only
logged. -/
def TxPool.Remove (p : TxPool) (txHash _txID : Nat) : Bool × TxPool :=
  ((p.all.Remove txHash).1, { p with all := (p.all.Remove txHash).2 })

/-- The deferred function of `packing`: `s.txPool.Remove(tx.Hash(), tx.ID())`
for every transaction of `txsToRemove`. -/
def packingCleanup (txsToRemove : List Transaction) (txPool : TxPool) : TxPool :=
  txsToRemove.foldl (fun p tx => (p.Remove tx.hash tx.id).2) txPool

/-- `Solo.packing` as far as the pool is concerned: the returned error, if
any, and the pool afterwards. `mock` is the result of `s.packer.Mock`,
`adopt` is `flow.Adopt`, and `finish` stands for the steps after the adoption
loop (pack, commit, add block, write logs), which report an error or none and
do not touch the pool. The deferred function runs on every return. -/
def packing {F : Type} (mock : Except String F)
    (adopt : F → Transaction → F × Option AdoptError) (finish : F → Option String)
    (txPool : TxPool) (pendingTxs : List Transaction) : Option String × TxPool :=
  match mock with
  | .error e => (some ("mock packer: " ++ e), packingCleanup [] txPool)
  | .ok flow =>
    let st := adoptLoop adopt pendingTxs ⟨flow, [], []⟩
    (finish st.flow, packingCleanup st.txsToRemove txPool)

/-- The calls of `flow.Adopt` that the adoption loop makes from the flow
`flow` on, each with the error it returned. -/
def adoptCalls {F : Type} (adopt : F → Transaction → F × Option AdoptError) :
    F → List Transaction → List (Transaction × Option AdoptError)
  | _, [] => []
  | flow, tx :: rest => (tx, (adopt flow tx).2) :: adoptCalls adopt (adopt flow tx).1 rest

/-- The result of `flow.Adopt` is no error, or an error other than
`GasLimitReached` and `TxNotAdoptableNow`. -/
def adoptedOrRefused (err : Option AdoptError) : Bool :=
  match err with
  | none => true
  | some (.other _) => true
  | some .gasLimitReached => false
  | some .txNotAdoptableNow => false

/-- The result of `flow.Adopt` is an error other than `GasLimitReached` and
`TxNotAdoptableNow`. -/
def refusedForGood (err : Option AdoptError) : Bool :=
  match err with
  | some (.other _) => true
  | _ => false

/-- The result of washing `demoPool` when the seeker reports an error. -/
def demoWashFailed : WashReturn × TxPool :=
  (demoPool.wash { demoEnv with seekerErr := some "closed" }).getD (⟨[], 0, none⟩, demoPool)

/-! ## The snapshot of `wash` as the specification words it -/

/-- The lifetime test as the specification words it, on the integers:
`now > time_added + MaxLifetime`. -/
def pastLifetime (env : Env) (options : Options) (txObj : TxObject) : Bool :=
  decide (env.nowNano > txObj.timeAdded + options.MaxLifetime)

/-- An object the specification keeps for the snapshot: its origin is not
blocked, it is not past its lifetime, and its executability evaluates to
`true` without error. -/
def snapshotEligible (env : Env) (options : Options) (txObj : TxObject) : Bool :=
  !(env.isOriginBlocked txObj.Origin || env.blocklist txObj.Origin) &&
    !pastLifetime env options txObj &&
    (match env.executable txObj with
     | .ok true => true
     | _ => false)

/-- The objects of the listing that the specification keeps for the snapshot,
in insertion order, with their priority score recomputed. -/
def snapshotSurvivors (env : Env) (p : TxPool) : List TxObject :=
  (p.all.ToTxObjects.filter (snapshotEligible env p.options)).map (withPrice env)

/-- The sum `time_added + MaxLifetime` is an `int64` for every object of the
index. -/
def TxPool.lifetimeInRange (p : TxPool) : Prop :=
  ∀ o ∈ p.all.ToTxObjects,
    -2 ^ 63 ≤ o.timeAdded + p.options.MaxLifetime ∧ o.timeAdded + p.options.MaxLifetime < 2 ^ 63

instance (p : TxPool) : Decidable p.lifetimeInRange := by
  unfold TxPool.lifetimeInRange; infer_instance

/-- A pool with the longest lifetime there is, `math.MaxInt64`, holding one
object that was added at 1 s. -/
def longLifePool : TxPool where
  options := ⟨10, 2, 2 ^ 63 - 1⟩
  all := ⟨[⟨mkTx 2 1, ⟨1, 21000⟩, 10 ^ 9, false, 0⟩]⟩
  addedAfterWash := 0
  executables := none
  txFeed := []

/-- The environment `demoEnv` at 2 s. -/
def longLifeEnv : Env := { demoEnv with nowNano := 2 * 10 ^ 9 }

/-- The result of washing `longLifePool` under `longLifeEnv`. -/
def longLifeWashed : WashReturn × TxPool :=
  (longLifePool.wash longLifeEnv).getD (⟨[], 0, some ""⟩, longLifePool)

/-! # Theorems -/

/-! ## The index: basic facts -/

theorem store_hashes (m : txObjectMap) (o : TxObject) :
    (m.store o).objs.map TxObject.Hash = m.objs.map TxObject.Hash := by
  unfold txObjectMap.store
  simp only [List.map_map]
  apply List.map_congr_left
  intro x _
  simp only [Function.comp]
  split
  · rename_i h
    exact (beq_iff_eq.mp h).symm
  · rfl

theorem remove_all_objs (l : List TxObject) (m : txObjectMap) :
    (l.foldl (fun m txObj => (m.Remove txObj.Hash).2) m).objs =
      m.objs.filter (fun o => decide (o.Hash ∉ l.map TxObject.Hash)) := by
  induction l generalizing m with
  | nil => simp
  | cons x xs ih =>
    rw [List.foldl_cons, ih]
    simp only [txObjectMap.Remove, List.filter_filter, List.map_cons, List.mem_cons, not_or]
    apply List.filter_congr
    intro o _
    by_cases h1 : o.Hash = x.Hash <;> by_cases h2 : o.Hash ∈ xs.map TxObject.Hash <;>
      simp [h1, h2]

theorem filter_hash_length (objs : List TxObject) (R K : List Nat)
    (hnd : (objs.map TxObject.Hash).Nodup)
    (hperm : (objs.map TxObject.Hash).Perm (R ++ K)) :
    (objs.filter (fun o => decide (o.Hash ∉ R))).length = K.length := by
  have h1 : (objs.filter (fun o => decide (o.Hash ∉ R))).length =
      ((objs.map TxObject.Hash).filter (fun h => decide (h ∉ R))).length := by
    rw [List.filter_map, List.length_map]
    rfl
  rw [h1, (hperm.filter _).length_eq, List.filter_append]
  have hnd2 : (R ++ K).Nodup := hperm.nodup_iff.mp hnd
  have hdisj := (List.nodup_append.mp hnd2).2.2
  have hR : R.filter (fun h => decide (h ∉ R)) = [] := by
    rw [List.filter_eq_nil_iff]
    intro a ha
    simp [ha]
  have hK : K.filter (fun h => decide (h ∉ R)) = K := by
    rw [List.filter_eq_self]
    intro a ha
    have : a ∉ R := fun hr => hdisj hr ha
    simp [this]
  rw [hR, hK]
  rfl

theorem perm_three_filter {α : Type} (A B C : α → Bool) (l : List α)
    (h : ∀ x ∈ l, (A x = true ∧ B x = false ∧ C x = false) ∨
      (A x = false ∧ B x = true ∧ C x = false) ∨ (A x = false ∧ B x = false ∧ C x = true)) :
    l.Perm (l.filter A ++ l.filter B ++ l.filter C) := by
  induction l with
  | nil => simp
  | cons x xs ih =>
    have ih2 := ih (fun y hy => h y (List.mem_cons_of_mem _ hy))
    rcases h x (List.mem_cons_self _ _) with ⟨ha, hb, hc⟩ | ⟨ha, hb, hc⟩ | ⟨ha, hb, hc⟩
    · simp only [List.filter_cons, ha, hb, hc, if_true, Bool.false_eq_true, if_false,
        List.cons_append]
      exact ih2.cons x
    · simp only [List.filter_cons, ha, hb, hc, if_true, Bool.false_eq_true, if_false,
        List.append_assoc, List.cons_append]
      exact (ih2.cons x).trans (by rw [List.append_assoc]; exact List.perm_middle.symm)
    · simp only [List.filter_cons, ha, hb, hc, if_true, Bool.false_eq_true, if_false]
      exact (ih2.cons x).trans List.perm_middle.symm

theorem wash_classes (env : Env) (options : Options) (x : TxObject) :
    (washedOut env options x = true ∧ washExecutable env options x = false ∧
        washNonExecutable env options x = false) ∨
    (washedOut env options x = false ∧ washExecutable env options x = true ∧
        washNonExecutable env options x = false) ∨
    (washedOut env options x = false ∧ washExecutable env options x = false ∧
        washNonExecutable env options x = true) := by
  unfold washedOut washExecutable washNonExecutable
  cases originBlocked env x <;> cases outOfLifetime env options x <;>
    rcases env.executable x with e | (_ | _) <;> simp

theorem washVisit_eq (env : Env) (options : Options) (acc : WashAcc) (x : TxObject) :
    washVisit env options acc x =
      if washedOut env options x then { acc with toRemove := acc.toRemove ++ [x] }
      else if washExecutable env options x then
        { acc with
          executableObjs := acc.executableObjs ++ [withPrice env x]
          all := acc.all.store (withPrice env x) }
      else { acc with nonExecutableObjs := acc.nonExecutableObjs ++ [x] } := by
  have hb : (env.isOriginBlocked x.Origin || env.blocklist x.Origin) = originBlocked env x := rfl
  unfold washVisit washedOut washExecutable
  rw [hb]
  by_cases hB : originBlocked env x = true
  · simp [hB]
  · by_cases hO : outOfLifetime env options x = true
    · simp [hB, hO]
    · rcases hE : env.executable x with e | (_ | _) <;> simp [hB, hO, withPrice]

theorem washVisit_foldl (env : Env) (options : Options) (l : List TxObject) (acc : WashAcc) :
    (l.foldl (washVisit env options) acc).toRemove =
        acc.toRemove ++ l.filter (washedOut env options) ∧
    (l.foldl (washVisit env options) acc).executableObjs =
        acc.executableObjs ++ (l.filter (washExecutable env options)).map (withPrice env) ∧
    (l.foldl (washVisit env options) acc).nonExecutableObjs =
        acc.nonExecutableObjs ++ l.filter (washNonExecutable env options) ∧
    (l.foldl (washVisit env options) acc).all.objs.map TxObject.Hash =
        acc.all.objs.map TxObject.Hash := by
  induction l generalizing acc with
  | nil => simp
  | cons x xs ih =>
    rw [List.foldl_cons]
    obtain ⟨h1, h2, h3, h4⟩ := ih (washVisit env options acc x)
    rw [h1, h2, h3, h4, washVisit_eq]
    rcases wash_classes env options x with ⟨ha, hb, hc⟩ | ⟨ha, hb, hc⟩ | ⟨ha, hb, hc⟩ <;>
      simp [List.filter_cons, ha, hb, hc, store_hashes]

theorem washCollect_spec (l : List TxObject)
    (st : List Transaction × List Transaction × txObjectMap) :
    (washCollect l st).1 = st.1 ++ l.map (fun o => o.tx) ∧
    (washCollect l st).2.2.objs.map TxObject.Hash = st.2.2.objs.map TxObject.Hash := by
  induction l generalizing st with
  | nil => simp [washCollect]
  | cons x xs ih =>
    obtain ⟨e, b, m⟩ := st
    unfold washCollect
    split
    · obtain ⟨h1, h2⟩ := ih (e ++ [x.tx], b ++ [x.tx], m.store { x with executable := true })
      rw [h1, h2]
      simp [store_hashes]
    · obtain ⟨h1, h2⟩ := ih (e ++ [x.tx], b, m)
      rw [h1, h2]
      simp

theorem washTraverse_spec (env : Env) (p : TxPool) :
    (washTraverse env p).toRemove = p.all.objs.filter (washedOut env p.options) ∧
    (washTraverse env p).executableObjs =
        (p.all.objs.filter (washExecutable env p.options)).map (withPrice env) ∧
    (washTraverse env p).nonExecutableObjs =
        p.all.objs.filter (washNonExecutable env p.options) ∧
    (washTraverse env p).all.objs.map TxObject.Hash = p.all.objs.map TxObject.Hash := by
  have h := washVisit_foldl env p.options p.all.objs ⟨[], [], [], p.all⟩
  simpa [washTraverse, txObjectMap.ToTxObjects] using h

theorem withPrice_hash (env : Env) :
    TxObject.Hash ∘ withPrice env = TxObject.Hash := by
  funext o
  rfl

theorem washTraverse_perm (env : Env) (p : TxPool) :
    (p.all.objs.map TxObject.Hash).Perm
      ((washTraverse env p).toRemove.map TxObject.Hash ++
        (washTraverse env p).executableObjs.map TxObject.Hash ++
        (washTraverse env p).nonExecutableObjs.map TxObject.Hash) := by
  obtain ⟨h1, h2, h3, _⟩ := washTraverse_spec env p
  rw [h1, h2, h3, List.map_map, withPrice_hash, ← List.map_append, ← List.map_append]
  exact (perm_three_filter _ _ _ p.all.objs (fun x _ => wash_classes env p.options x)).map _

theorem washReturn_ok (p : TxPool) (toRemove kept : List TxObject) (index : txObjectMap)
    (feed : List TxEvent) (execs : List Transaction) (hwf : p.all.WF)
    (hidx : index.objs.map TxObject.Hash = p.all.objs.map TxObject.Hash)
    (hperm : (p.all.objs.map TxObject.Hash).Perm
      (toRemove.map TxObject.Hash ++ kept.map TxObject.Hash)) :
    (washReturn p toRemove index feed execs none).2.all.Len = kept.length ∧
    (washReturn p toRemove index feed execs none).1.removed = (toRemove.length : Int) ∧
    p.all.Len = toRemove.length + kept.length := by
  refine ⟨?_, rfl, ?_⟩
  · simp only [washReturn, washDeferred, txObjectMap.Len, remove_all_objs]
    have := filter_hash_length index.objs (toRemove.map TxObject.Hash) (kept.map TxObject.Hash)
      (by rw [hidx]; exact hwf) (by rw [hidx]; exact hperm)
    simpa using this
  · have := hperm.length_eq
    simpa [txObjectMap.Len] using this

theorem washEnforce_spec (limit : Int) (T E N T2 E2 : List TxObject)
    (h : washEnforce limit T E N = some (T2, E2)) :
    0 ≤ limit ∧ E2 = E.take limit.toNat ∧
    ∃ kept : List TxObject, (T ++ E ++ N).Perm (T2 ++ kept) ∧
      (kept.length : Int) ≤ limit ∧
      ((E.length : Int) + (N.length : Int) > limit → (kept.length : Int) = limit) := by
  unfold washEnforce at h
  split at h
  · rename_i h1
    split at h
    · exact absurd h (by simp)
    · rename_i h2
      simp only [Option.some.injEq, Prod.mk.injEq] at h
      obtain ⟨hT, hE⟩ := h
      refine ⟨by omega, hE.symm, E.take limit.toNat, ?_, ?_, ?_⟩
      · rw [← hT, List.perm_iff_count]
        intro a
        have hs : List.count a E = List.count a (E.take limit.toNat) +
            List.count a (E.drop limit.toNat) := by
          rw [← List.count_append, List.take_append_drop]
        simp only [List.count_append]
        omega
      · rw [List.length_take]; omega
      · intro _; rw [List.length_take]; omega
  · rename_i h1
    split at h
    · rename_i h2
      simp only [Option.some.injEq, Prod.mk.injEq] at h
      obtain ⟨hT, hE⟩ := h
      have hl : 0 ≤ limit := by omega
      refine ⟨hl, ?_, E ++ N.take (limit - (E.length : Int)).toNat, ?_, ?_, ?_⟩
      · rw [← hE, List.take_of_length_le]; omega
      · rw [← hT, List.perm_iff_count]
        intro a
        have hs : List.count a N = List.count a (N.take (limit - (E.length : Int)).toNat) +
            List.count a (N.drop (limit - (E.length : Int)).toNat) := by
          rw [← List.count_append, List.take_append_drop]
        simp only [List.count_append]
        omega
      · rw [List.length_append, List.length_take]; omega
      · intro _; rw [List.length_append, List.length_take]; omega
    · rename_i h2
      simp only [Option.some.injEq, Prod.mk.injEq] at h
      obtain ⟨hT, hE⟩ := h
      have hl : 0 ≤ limit := by omega
      refine ⟨hl, ?_, E ++ N, ?_, ?_, ?_⟩
      · rw [← hE, List.take_of_length_le]; omega
      · rw [← hT, List.append_assoc]
      · rw [List.length_append]; omega
      · intro h3; omega

theorem sort_perm (l : List TxObject) : (sortTxObjsByOverallGasPriceDesc l).Perm l :=
  List.perm_insertionSort _ l

theorem wash_ok_inv (env : Env) (p p2 : TxPool) (r : WashReturn)
    (h : p.wash env = some (r, p2)) (herr : r.err = none) :
    env.newState = none ∧ env.stateErr = none ∧ env.seekerErr = none ∧
    ∃ toRemove executableObjs : List TxObject,
      washEnforce p.options.Limit (washTraverse env p).toRemove
        (sortTxObjsByOverallGasPriceDesc (washTraverse env p).executableObjs)
        (washTraverse env p).nonExecutableObjs = some (toRemove, executableObjs) ∧
      (r, p2) = washReturn p toRemove
        (washCollect executableObjs ([], [], (washTraverse env p).all)).2.2
        (p.txFeed ++ (washCollect executableObjs ([], [], (washTraverse env p).all)).2.1.map
          (fun tx => ⟨tx, some true⟩))
        (washCollect executableObjs ([], [], (washTraverse env p).all)).1 none := by
  unfold TxPool.wash at h
  cases hN : env.newState with
  | some e =>
    simp only [hN, Option.some.injEq] at h
    have h2 := congrArg (fun x => x.1.err) h
    simp only [washReturn] at h2
    rw [herr] at h2
    exact absurd h2 (by simp)
  | none =>
    cases hS : env.stateErr with
    | some e =>
      simp only [hN, hS, Option.some.injEq] at h
      have h2 := congrArg (fun x => x.1.err) h
      simp only [washReturn] at h2
      rw [herr] at h2
      exact absurd h2 (by simp)
    | none =>
      cases hK : env.seekerErr with
      | some e =>
        simp only [hN, hS, hK, Option.some.injEq] at h
        have h2 := congrArg (fun x => x.1.err) h
        simp only [washReturn] at h2
        rw [herr] at h2
        exact absurd h2 (by simp)
      | none =>
        simp only [hN, hS, hK] at h
        refine ⟨rfl, rfl, rfl, ?_⟩
        split at h
        · exact absurd h (by simp)
        · rename_i T E hEq
          simp only [Option.some.injEq] at h
          exact ⟨T, E, hEq, h.symm⟩

/-- C1: a wash that returns no error leaves an index of at most `Limit`
objects, of exactly `Limit` objects when the executable and non-executable
survivors of the traversal exceeded `Limit`; the index has lost exactly the
`removed` objects of `toRemove`, and the limit is then not negative. -/
theorem wash_index_within_limit (env : Env) (p p2 : TxPool) (r : WashReturn)
    (hwf : p.all.WF) (h : p.wash env = some (r, p2)) (herr : r.err = none) :
    0 ≤ p.options.Limit ∧
    (p2.all.Len : Int) ≤ p.options.Limit ∧
    (((washTraverse env p).executableObjs.length : Int) +
        ((washTraverse env p).nonExecutableObjs.length : Int) > p.options.Limit →
      (p2.all.Len : Int) = p.options.Limit) ∧
    (p2.all.Len : Int) = (p.all.Len : Int) - r.removed := by
  obtain ⟨_, _, _, T2, E2, hEnf, hret⟩ := wash_ok_inv env p p2 r h herr
  obtain ⟨hlim, _, kept, hperm, hle, heq⟩ := washEnforce_spec _ _ _ _ _ _ hEnf
  have hperm2 : (p.all.objs.map TxObject.Hash).Perm
      (T2.map TxObject.Hash ++ kept.map TxObject.Hash) := by
    rw [← List.map_append]
    refine (washTraverse_perm env p).trans ?_
    rw [← List.map_append, ← List.map_append]
    refine List.Perm.trans ?_ (hperm.map _)
    refine List.Perm.map _ ?_
    exact (List.Perm.append_right _ ((sort_perm _).symm.append_left _))
  have hidx : (washCollect E2 ([], [], (washTraverse env p).all)).2.2.objs.map TxObject.Hash =
      p.all.objs.map TxObject.Hash := by
    rw [(washCollect_spec _ _).2]
    exact (washTraverse_spec env p).2.2.2
  obtain ⟨h1, h2, h3⟩ := washReturn_ok p T2 kept _
    (p.txFeed ++ (washCollect E2 ([], [], (washTraverse env p).all)).2.1.map
      (fun tx => ⟨tx, some true⟩))
    (washCollect E2 ([], [], (washTraverse env p).all)).1 hwf hidx hperm2
  rw [← hret] at h1 h2
  simp only at h1 h2
  have hlen : (sortTxObjsByOverallGasPriceDesc (washTraverse env p).executableObjs).length =
      (washTraverse env p).executableObjs.length := (sort_perm _).length_eq
  rw [hlen] at heq
  refine ⟨hlim, ?_, ?_, ?_⟩
  · rw [h1]; exact hle
  · intro hgt; rw [h1]; exact heq hgt
  · rw [h1, h2, h3]; push_cast; omega

theorem wash_index_within_limit_witness :
    demoPool.all.WF ∧ demoPool.wash demoEnv = some (demoWashed.1, demoWashed.2) ∧
    demoWashed.1.err = none ∧
    (0 ≤ demoPool.options.Limit ∧
    (demoWashed.2.all.Len : Int) ≤ demoPool.options.Limit ∧
    (((washTraverse demoEnv demoPool).executableObjs.length : Int) +
        ((washTraverse demoEnv demoPool).nonExecutableObjs.length : Int) > demoPool.options.Limit →
      (demoWashed.2.all.Len : Int) = demoPool.options.Limit) ∧
    (demoWashed.2.all.Len : Int) = (demoPool.all.Len : Int) - demoWashed.1.removed) :=
  ⟨by decide, by decide, by decide,
    wash_index_within_limit demoEnv demoPool demoWashed.2 demoWashed.1
      (by decide) (by decide) (by decide)⟩

/-! ## The sort of the executable objects -/

theorem sort_sorted (l : List TxObject) :
    (sortTxObjsByOverallGasPriceDesc l).Sorted
      (fun a b => a.overallGasPrice ≥ b.overallGasPrice) := by
  haveI : IsTotal TxObject (fun a b => a.overallGasPrice ≥ b.overallGasPrice) :=
    ⟨fun a b => Nat.le_total b.overallGasPrice a.overallGasPrice⟩
  haveI : IsTrans TxObject (fun a b => a.overallGasPrice ≥ b.overallGasPrice) :=
    ⟨fun a b c hab hbc => Nat.le_trans hbc hab⟩
  exact List.sorted_insertionSort _ l

theorem orderedInsert_filter_price (c : Nat) (x : TxObject) (S : List TxObject) :
    (List.orderedInsert (fun a b => a.overallGasPrice ≥ b.overallGasPrice) x S).filter
        (fun o => o.overallGasPrice == c) =
      (x :: S).filter (fun o => o.overallGasPrice == c) := by
  induction S with
  | nil => simp
  | cons b S ih =>
    rw [List.orderedInsert]
    split
    · rfl
    · rename_i hlt
      have hne : b.overallGasPrice ≠ x.overallGasPrice := by omega
      rw [List.filter_cons, ih]
      by_cases hb : b.overallGasPrice = c <;> by_cases hx : x.overallGasPrice = c
      · omega
      · simp [List.filter_cons, hb, hx]
      · simp [List.filter_cons, hb, hx]
      · simp [List.filter_cons, hb, hx]

theorem sort_stable (c : Nat) (l : List TxObject) :
    (sortTxObjsByOverallGasPriceDesc l).filter (fun o => o.overallGasPrice == c) =
      l.filter (fun o => o.overallGasPrice == c) := by
  induction l with
  | nil => rfl
  | cons x xs ih =>
    unfold sortTxObjsByOverallGasPriceDesc at ih ⊢
    rw [List.insertionSort, orderedInsert_filter_price, List.filter_cons, ih, List.filter_cons]

/-! ## The snapshot returned by `wash` -/

theorem washEnforce_some (limit : Int) (T E N : List TxObject) (hl : 0 ≤ limit) :
    ∃ T2, washEnforce limit T E N = some (T2, E.take limit.toNat) := by
  unfold washEnforce
  split
  · rw [if_neg (by omega)]
    exact ⟨_, rfl⟩
  · have hE : E.take limit.toNat = E := by
      rw [List.take_of_length_le]; omega
    rw [hE]
    split
    · exact ⟨_, rfl⟩
    · exact ⟨_, rfl⟩

theorem wash_ok_executables (env : Env) (p p2 : TxPool) (r : WashReturn)
    (h : p.wash env = some (r, p2)) (herr : r.err = none) :
    r.executables =
      ((sortTxObjsByOverallGasPriceDesc (washSurvivors env p)).take p.options.Limit.toNat).map
        (fun o => o.tx) := by
  obtain ⟨_, _, _, T2, E2, hEnf, hret⟩ := wash_ok_inv env p p2 r h herr
  obtain ⟨_, hE2, _⟩ := washEnforce_spec _ _ _ _ _ _ hEnf
  have h1 := congrArg (fun x => x.1.executables) hret
  simp only [washReturn] at h1
  rw [h1, (washCollect_spec _ _).1, hE2, (washTraverse_spec env p).2.1]
  rfl

theorem wash_returns (env : Env) (p : TxPool) (hN : env.newState = none)
    (hS : env.stateErr = none) (hK : env.seekerErr = none) (hl : 0 ≤ p.options.Limit) :
    ∃ r p2, p.wash env = some (r, p2) ∧ r.err = none := by
  obtain ⟨T2, hT⟩ := washEnforce_some p.options.Limit (washTraverse env p).toRemove
    (sortTxObjsByOverallGasPriceDesc (washTraverse env p).executableObjs)
    (washTraverse env p).nonExecutableObjs hl
  unfold TxPool.wash
  simp only [hN, hS, hK, hT]
  exact ⟨_, _, rfl, rfl⟩

theorem outOfLifetime_eq (env : Env) (options : Options) (o : TxObject)
    (h1 : -2 ^ 63 ≤ o.timeAdded + options.MaxLifetime)
    (h2 : o.timeAdded + options.MaxLifetime < 2 ^ 63) :
    outOfLifetime env options o = decide (env.nowNano > o.timeAdded + options.MaxLifetime) := by
  unfold outOfLifetime wrapInt64
  congr 2
  omega

/-- The snapshot returned by a wash without error, with the lifetime test of
the source (`int64`): the executable survivors of the traversal in insertion
order, sorted by recomputed overall gas price descending with ties in
insertion order, cut to the first `Limit` entries and mapped to their
transactions; the cases of one and of two survivors. -/
theorem snapshot_int64 (env : Env) (p : TxPool) :
    (∀ r p2, p.wash env = some (r, p2) → r.err = none →
      ∃ S : List TxObject,
        S.Perm (washSurvivors env p) ∧
        S.Sorted (fun a b => a.overallGasPrice ≥ b.overallGasPrice) ∧
        (∀ c, S.filter (fun o => o.overallGasPrice == c) =
          (washSurvivors env p).filter (fun o => o.overallGasPrice == c)) ∧
        r.executables = (S.take p.options.Limit.toNat).map (fun o => o.tx)) ∧
    (∀ A, p.all.ToTxObjects = [A] → washExecutable env p.options A = true →
      env.newState = none → env.stateErr = none → env.seekerErr = none →
      1 ≤ p.options.Limit →
      ∃ r p2, p.wash env = some (r, p2) ∧ r.err = none ∧ r.executables = [A.tx]) ∧
    (∀ A B, (p.all.ToTxObjects = [A, B] ∨ p.all.ToTxObjects = [B, A]) →
      washExecutable env p.options A = true → washExecutable env p.options B = true →
      env.overallGasPrice A.tx < env.overallGasPrice B.tx →
      env.newState = none → env.stateErr = none → env.seekerErr = none →
      2 ≤ p.options.Limit →
      ∃ r p2, p.wash env = some (r, p2) ∧ r.err = none ∧ r.executables = [B.tx, A.tx]) ∧
    (∀ o, -2 ^ 63 ≤ o.timeAdded + p.options.MaxLifetime →
      o.timeAdded + p.options.MaxLifetime < 2 ^ 63 →
      (washExecutable env p.options o = true ↔
        (env.isOriginBlocked o.Origin = false ∧ env.blocklist o.Origin = false) ∧
        ¬ (env.nowNano > o.timeAdded + p.options.MaxLifetime) ∧
        env.executable o = .ok true)) := by
  refine ⟨?_, ?_, ?_, ?_⟩
  rotate_left 3
  · intro o h1 h2
    unfold washExecutable
    rw [outOfLifetime_eq env p.options o h1 h2, originBlocked]
    rcases env.executable o with e | (_ | _) <;> simp
  · intro r p2 h herr
    exact ⟨_, sort_perm _, sort_sorted _, fun c => sort_stable c _,
      wash_ok_executables env p p2 r h herr⟩
  · intro A hA hx hN hS hK hl
    obtain ⟨r, p2, h, herr⟩ := wash_returns env p hN hS hK (by omega)
    refine ⟨r, p2, h, herr, ?_⟩
    rw [wash_ok_executables env p p2 r h herr, washSurvivors, hA]
    obtain ⟨n, hn⟩ := Int.eq_ofNat_of_zero_le (show 0 ≤ p.options.Limit by omega)
    have hn1 : 1 ≤ n := by omega
    obtain ⟨k, rfl⟩ := Nat.exists_eq_add_of_le hn1
    simp [hn, hx, sortTxObjsByOverallGasPriceDesc, withPrice, Nat.add_comm 1 k]
  · intro A B hAB hxA hxB hlt hN hS hK hl
    obtain ⟨r, p2, h, herr⟩ := wash_returns env p hN hS hK (by omega)
    refine ⟨r, p2, h, herr, ?_⟩
    rw [wash_ok_executables env p p2 r h herr, washSurvivors]
    obtain ⟨n, hn⟩ := Int.eq_ofNat_of_zero_le (show 0 ≤ p.options.Limit by omega)
    have hn2 : 2 ≤ n := by omega
    obtain ⟨k, rfl⟩ := Nat.exists_eq_add_of_le hn2
    rcases hAB with hAB | hAB
    · rw [hAB]
      simp [hn, hxA, hxB, sortTxObjsByOverallGasPriceDesc, withPrice, Nat.add_comm 2 k,
        List.orderedInsert, Nat.not_le.mpr hlt]
      omega
    · rw [hAB]
      simp [hn, hxA, hxB, sortTxObjsByOverallGasPriceDesc, withPrice, Nat.add_comm 2 k,
        List.orderedInsert, Nat.le_of_lt hlt]
      omega

/-! ## `TxPool.add` -/

theorem resolveTx_ok (env : Env) (tx : Transaction) (o : TxObject)
    (h : resolveTx env tx = .ok o) : o.tx = tx := by
  unfold resolveTx at h
  split at h
  · exact absurd h (by simp)
  · simp only [Except.ok.injEq] at h
    rw [← h]

theorem index_Add_fresh (m m2 : txObjectMap) (o : TxObject) (lim : Int)
    (hc : m.Contains o.Hash = false) (h : m.Add o lim = .ok m2) :
    m2.objs = m.objs ++ [o] ∧ (m.quota o.Origin : Int) ≠ lim := by
  unfold txObjectMap.Add at h
  rw [hc] at h
  simp only [Bool.false_eq_true, if_false] at h
  split at h
  · exact absurd h (by simp)
  · rename_i hq
    simp only [Except.ok.injEq] at h
    exact ⟨by rw [← h], hq⟩

theorem index_Contains_append (m : txObjectMap) (o : TxObject) :
    (⟨m.objs ++ [o]⟩ : txObjectMap).Contains o.Hash = true := by
  simp [txObjectMap.Contains]

/-- The four outcomes of `add`: a duplicate and a blocked origin return
success and leave the pool as it was; a failure leaves the pool as it was;
otherwise the call succeeds, one object for the transaction is appended to
the index, one event for it is sent and the counter is incremented. -/
theorem add_cases (env : Env) (p : TxPool) (tx : Transaction) (strict : Bool) :
    (p.all.Contains tx.hash = true ∧ p.add env tx strict = (none, p)) ∨
    (p.all.Contains tx.hash = false ∧
      (env.isOriginBlocked tx.origin || env.blocklist tx.origin) = true ∧
      p.add env tx strict = (none, p)) ∨
    (p.all.Contains tx.hash = false ∧
      (env.isOriginBlocked tx.origin || env.blocklist tx.origin) = false ∧
      ∃ err, p.add env tx strict = (some err, p)) ∨
    (p.all.Contains tx.hash = false ∧
      (env.isOriginBlocked tx.origin || env.blocklist tx.origin) = false ∧
      ∃ obj e, obj.tx = tx ∧
        p.add env tx strict =
          (none, { p with
            all := ⟨p.all.objs ++ [obj]⟩
            txFeed := p.txFeed ++ [⟨tx, e⟩]
            addedAfterWash := addUint32 p.addedAfterWash 1 })) := by
  unfold TxPool.add
  split
  · rename_i hc
    exact Or.inl ⟨hc, rfl⟩
  rename_i hc
  have hc2 : p.all.Contains tx.hash = false := by simpa using hc
  split
  · rename_i hb
    exact Or.inr (Or.inl ⟨hc2, hb, rfl⟩)
  rename_i hb
  have hb2 : (env.isOriginBlocked tx.origin || env.blocklist tx.origin) = false := by
    simpa using hb
  split
  · exact Or.inr (Or.inr (Or.inl ⟨hc2, hb2, _, rfl⟩))
  split
  · exact Or.inr (Or.inr (Or.inl ⟨hc2, hb2, _, rfl⟩))
  split
  · exact Or.inr (Or.inr (Or.inl ⟨hc2, hb2, _, rfl⟩))
  split
  · exact Or.inr (Or.inr (Or.inl ⟨hc2, hb2, _, rfl⟩))
  rename_i txObj hres
  have htx := resolveTx_ok env tx txObj hres
  split
  · split
    · exact Or.inr (Or.inr (Or.inl ⟨hc2, hb2, _, rfl⟩))
    split
    · exact Or.inr (Or.inr (Or.inl ⟨hc2, hb2, _, rfl⟩))
    rename_i executable hex
    split
    · exact Or.inr (Or.inr (Or.inl ⟨hc2, hb2, _, rfl⟩))
    split
    · exact Or.inr (Or.inr (Or.inl ⟨hc2, hb2, _, rfl⟩))
    rename_i all hadd
    have hf := (index_Add_fresh p.all all { txObj with executable := executable } _
      (by simpa [TxObject.Hash, htx] using hc2) hadd).1
    refine Or.inr (Or.inr (Or.inr
      ⟨hc2, hb2, { txObj with executable := executable }, some executable, htx, ?_⟩))
    rw [← hf]
  · split
    · exact Or.inr (Or.inr (Or.inl ⟨hc2, hb2, _, rfl⟩))
    split
    · exact Or.inr (Or.inr (Or.inl ⟨hc2, hb2, _, rfl⟩))
    rename_i all hadd
    have hf := (index_Add_fresh p.all all txObj _
      (by simpa [TxObject.Hash, htx] using hc2) hadd).1
    refine Or.inr (Or.inr (Or.inr ⟨hc2, hb2, txObj, none, htx, ?_⟩))
    rw [← hf]

/-- C3, as amended: a successful `Add` or `StrictlyAdd` of a transaction whose
origin is neither in the builtin blocked set nor in the block list leaves the
hash of the transaction in the index. -/
theorem add_success_contains (env : Env) (p : TxPool) (tx : Transaction)
    (hb : (env.isOriginBlocked tx.origin || env.blocklist tx.origin) = false) :
    ((p.Add env tx).1 = none → (p.Add env tx).2.all.Contains tx.hash = true) ∧
    ((p.StrictlyAdd env tx).1 = none →
      (p.StrictlyAdd env tx).2.all.Contains tx.hash = true) := by
  have key : ∀ strict, (p.add env tx strict).1 = none →
      (p.add env tx strict).2.all.Contains tx.hash = true := by
    intro strict h
    rcases add_cases env p tx strict with ⟨hc, he⟩ | ⟨_, hb2, _⟩ | ⟨_, _, err, he⟩ |
      ⟨_, _, obj, e, htx, he⟩
    · rw [he]; exact hc
    · rw [hb] at hb2; exact absurd hb2 (by simp)
    · rw [he] at h; exact absurd h (by simp)
    · rw [he]
      have := index_Contains_append p.all obj
      rw [TxObject.Hash, htx] at this
      exact this
  exact ⟨key false, key true⟩

theorem add_success_contains_witness :
    (demoEnv.isOriginBlocked (mkTx 10 5).origin || demoEnv.blocklist (mkTx 10 5).origin) = false ∧
    (demoPool.Add demoEnv (mkTx 10 5)).1 = none ∧
    (demoPool.StrictlyAdd demoEnv (mkTx 10 5)).1 = none ∧
    (demoPool.Add demoEnv (mkTx 10 5)).2.all.Contains (mkTx 10 5).hash = true ∧
    (demoPool.StrictlyAdd demoEnv (mkTx 10 5)).2.all.Contains (mkTx 10 5).hash = true :=
  ⟨by decide, by decide, by decide,
    (add_success_contains demoEnv demoPool (mkTx 10 5) (by decide)).1 (by decide),
    (add_success_contains demoEnv demoPool (mkTx 10 5) (by decide)).2 (by decide)⟩

/-- C3, counterexample: `Add` and `StrictlyAdd` of a transaction whose origin
is blocked return success, and the index does not contain its hash. -/
theorem add_success_not_contains :
    (demoPool.Add demoEnv (mkTx 10 666)).1 = none ∧
    (demoPool.Add demoEnv (mkTx 10 666)).2.all.Contains (mkTx 10 666).hash = false ∧
    (demoPool.StrictlyAdd demoEnv (mkTx 10 666)).1 = none ∧
    (demoPool.StrictlyAdd demoEnv (mkTx 10 666)).2.all.Contains (mkTx 10 666).hash = false := by
  decide

theorem add_of_contains (env : Env) (p : TxPool) (tx : Transaction) (strict : Bool)
    (hc : p.all.Contains tx.hash = true) : p.add env tx strict = (none, p) := by
  unfold TxPool.add
  rw [if_pos hc]

/-- C4: adding a transaction whose hash is already in the index returns
success from `Add` and from `StrictlyAdd` and leaves the whole pool (index,
counter, feed) as it was; hence, when the pool is what adding the transaction
to an empty pool gave, both additions succeeded, the index holds one object
and the feed exactly one event. -/
theorem add_duplicate_idempotent (env : Env) (p : TxPool) (tx : Transaction)
    (hc : p.all.Contains tx.hash = true) :
    p.Add env tx = (none, p) ∧ p.StrictlyAdd env tx = (none, p) ∧
    (∀ (env0 : Env) (p0 : TxPool) (s1 s2 : Bool), p0.all = newTxObjectMap → p0.txFeed = [] →
      (p0.add env0 tx s1).2 = p →
      (p0.add env0 tx s1).1 = none ∧ (p.add env tx s2).1 = none ∧
      (p.add env tx s2).2.all.Len = 1 ∧ ∃ e, (p.add env tx s2).2.txFeed = [⟨tx, e⟩]) := by
  refine ⟨add_of_contains env p tx false hc, add_of_contains env p tx true hc, ?_⟩
  intro env0 p0 s1 s2 hall hfeed hp
  have hempty : p0.all.Contains tx.hash = false := by
    rw [hall]; rfl
  rw [add_of_contains env p tx s2 hc]
  rcases add_cases env0 p0 tx s1 with ⟨hc0, _⟩ | ⟨_, _, he⟩ | ⟨_, _, err, he⟩ |
    ⟨_, _, obj, e, htx, he⟩
  · rw [hempty] at hc0; exact absurd hc0 (by simp)
  · rw [he] at hp
    rw [← hp, hempty] at hc; exact absurd hc (by simp)
  · rw [he] at hp
    rw [← hp, hempty] at hc; exact absurd hc (by simp)
  · rw [he] at hp
    rw [he, ← hp]
    refine ⟨rfl, rfl, ?_, e, ?_⟩
    · simp [txObjectMap.Len, hall, newTxObjectMap]
    · simp [hfeed]

theorem add_duplicate_idempotent_witness :
    (newPool.Add demoEnv (mkTx 10 5)).2.all.Contains (mkTx 10 5).hash = true ∧
    (newPool.Add demoEnv (mkTx 10 5)).2.Add demoEnv (mkTx 10 5) =
      (none, (newPool.Add demoEnv (mkTx 10 5)).2) ∧
    ((newPool.Add demoEnv (mkTx 10 5)).2.Add demoEnv (mkTx 10 5)).2.all.Len = 1 :=
  ⟨by decide,
    (add_duplicate_idempotent demoEnv (newPool.Add demoEnv (mkTx 10 5)).2 (mkTx 10 5)
      (by decide)).1,
    ((add_duplicate_idempotent demoEnv (newPool.Add demoEnv (mkTx 10 5)).2 (mkTx 10 5)
      (by decide)).2.2 demoEnv newPool false false rfl rfl rfl).2.2.1⟩

/-- C5: for a transaction that is not in the index and whose origin is not
blocked, `add` fails at the first failing check of the fixed order chain tag,
size (above 65536 bytes), features, resolution, with the error of that check
and the pool left as it was, whatever the strict flag, the sync status and
the executability are. -/
theorem add_validation_order (env : Env) (p : TxPool) (tx : Transaction) (strict : Bool)
    (hc : p.all.Contains tx.hash = false)
    (hb : (env.isOriginBlocked tx.origin || env.blocklist tx.origin) = false) :
    (tx.chainTag ≠ env.chainTag →
      p.add env tx strict = (some (.badTxError "chain tag mismatch"), p)) ∧
    (tx.chainTag = env.chainTag → tx.size > 65536 →
      p.add env tx strict = (some (.txRejectedError "size too large"), p)) ∧
    (tx.chainTag = env.chainTag → tx.size ≤ 65536 →
      ∀ e, env.testFeatures tx env.headTxsFeatures = some e →
        p.add env tx strict = (some (.txRejectedError e), p)) ∧
    (tx.chainTag = env.chainTag → tx.size ≤ 65536 →
      env.testFeatures tx env.headTxsFeatures = none →
      ∀ e, env.resolveTransaction tx = .error e →
        p.add env tx strict = (some (.badTxError e), p)) := by
  have hsz : maxTxSize = 65536 := rfl
  refine ⟨?_, ?_, ?_, ?_⟩
  · intro ht
    unfold TxPool.add
    rw [if_neg (by simp [hc]), if_neg (by simp [hb]), if_pos ht]
  · intro ht hs
    unfold TxPool.add
    rw [if_neg (by simp [hc]), if_neg (by simp [hb]), if_neg (by simp [ht]),
      if_pos (by rw [hsz]; exact hs)]
  · intro ht hs e he
    unfold TxPool.add
    rw [if_neg (by simp [hc]), if_neg (by simp [hb]), if_neg (by simp [ht]),
      if_neg (by rw [hsz]; omega)]
    simp only [he]
  · intro ht hs hf e he
    unfold TxPool.add
    rw [if_neg (by simp [hc]), if_neg (by simp [hb]), if_neg (by simp [ht]),
      if_neg (by rw [hsz]; omega)]
    simp only [hf, resolveTx, he]

theorem add_validation_order_witness :
    newPool.all.Contains (⟨1, 1, 5, 2, 70000, 4⟩ : Transaction).hash = false ∧
    (demoEnv.isOriginBlocked (⟨1, 1, 5, 2, 70000, 4⟩ : Transaction).origin ||
      demoEnv.blocklist (⟨1, 1, 5, 2, 70000, 4⟩ : Transaction).origin) = false ∧
    (⟨1, 1, 5, 2, 70000, 4⟩ : Transaction).chainTag ≠ demoEnv.chainTag ∧
    newPool.add demoEnv ⟨1, 1, 5, 2, 70000, 4⟩ true =
      (some (.badTxError "chain tag mismatch"), newPool) :=
  ⟨by decide, by decide, by decide,
    (add_validation_order demoEnv newPool ⟨1, 1, 5, 2, 70000, 4⟩ true (by decide)
      (by decide)).1 (by decide)⟩

theorem index_Add_quota (m : txObjectMap) (o : TxObject) (lim : Int)
    (hc : m.Contains o.Hash = false) :
    m.Add o lim =
      if (m.quota o.Origin : Int) = lim then .error quotaExceeded else .ok ⟨m.objs ++ [o]⟩ := by
  unfold txObjectMap.Add
  rw [if_neg (by simp [hc])]

/-- C6: on a synced chain, for a transaction that passes the shared
validation and whose executability evaluates to `false` without error,
`StrictlyAdd` fails with `tx is not executable` and leaves the pool as it
was, while `Add`, the per-account quota permitting, appends the object with
`executable = false` to the index, sends `TxEvent{tx, false}` and increments
the `uint32` counter by one. -/
theorem add_nonexecutable_synced (env : Env) (p : TxPool) (tx : Transaction) (obj : TxObject)
    (hc : p.all.Contains tx.hash = false)
    (hb : (env.isOriginBlocked tx.origin || env.blocklist tx.origin) = false)
    (ht : tx.chainTag = env.chainTag) (hs : tx.size ≤ 65536)
    (hf : env.testFeatures tx env.headTxsFeatures = none)
    (hr : resolveTx env tx = .ok obj)
    (hsync : isChainSynced env.blockInterval (toUint64 env.nowUnix) env.headTimestamp = true)
    (hN : env.newState = none)
    (hx : env.executable obj = .ok false) :
    p.StrictlyAdd env tx = (some (.txRejectedError "tx is not executable"), p) ∧
    ((p.all.quota obj.Origin : Int) ≠ p.options.LimitPerAccount →
      p.Add env tx =
        (none, { p with
          all := ⟨p.all.objs ++ [{ obj with executable := false }]⟩
          txFeed := p.txFeed ++ [⟨tx, some false⟩]
          addedAfterWash := (p.addedAfterWash + 1) % 2 ^ 32 }) ∧
      (p.addedAfterWash + 1 < 2 ^ 32 →
        (p.Add env tx).2.addedAfterWash = p.addedAfterWash + 1)) := by
  have hsz : maxTxSize = 65536 := rfl
  have htx := resolveTx_ok env tx obj hr
  have hadd : p.Add env tx =
      match p.all.Add { obj with executable := false } p.options.LimitPerAccount with
      | .error e => (some (.txRejectedError e), p)
      | .ok all =>
        (none, { p with
          all := all
          txFeed := p.txFeed ++ [⟨tx, some false⟩]
          addedAfterWash := addUint32 p.addedAfterWash 1 }) := by
    unfold TxPool.Add TxPool.add
    rw [if_neg (by simp [hc]), if_neg (by simp [hb]), if_neg (by simp [ht]),
      if_neg (by rw [hsz]; omega)]
    simp only [hf, hr, hsync, hN, hx, if_true]
    rfl
  refine ⟨?_, ?_⟩
  · unfold TxPool.StrictlyAdd TxPool.add
    rw [if_neg (by simp [hc]), if_neg (by simp [hb]), if_neg (by simp [ht]),
      if_neg (by rw [hsz]; omega)]
    simp only [hf, hr, hsync, hN, hx, if_true]
    rfl
  · intro hq
    have hq2 : (p.all.quota (TxObject.Origin { obj with executable := false }) : Int) ≠
        p.options.LimitPerAccount := hq
    have h1 : p.Add env tx =
        (none, { p with
          all := ⟨p.all.objs ++ [{ obj with executable := false }]⟩
          txFeed := p.txFeed ++ [⟨tx, some false⟩]
          addedAfterWash := (p.addedAfterWash + 1) % 2 ^ 32 }) := by
      rw [hadd, index_Add_quota _ _ _ (by simpa [TxObject.Hash, htx] using hc), if_neg hq2]
      rfl
    refine ⟨h1, ?_⟩
    intro hlt
    rw [h1]
    exact Nat.mod_eq_of_lt hlt

theorem add_nonexecutable_synced_witness :
    newPool.StrictlyAdd demoEnv (mkTx 11 5) =
      (some (.txRejectedError "tx is not executable"), newPool) ∧
    newPool.Add demoEnv (mkTx 11 5) =
      (none, { newPool with
        all := ⟨[⟨mkTx 11 5, ⟨5, 21000⟩, 50, false, 0⟩]⟩
        txFeed := [⟨mkTx 11 5, some false⟩]
        addedAfterWash := 1 }) :=
  ⟨(add_nonexecutable_synced demoEnv newPool (mkTx 11 5) ⟨mkTx 11 5, ⟨5, 21000⟩, 50, false, 0⟩
      (by decide) (by decide) (by decide) (by decide) (by decide) rfl (by decide)
      (by decide) rfl).1,
    ((add_nonexecutable_synced demoEnv newPool (mkTx 11 5) ⟨mkTx 11 5, ⟨5, 21000⟩, 50, false, 0⟩
      (by decide) (by decide) (by decide) (by decide) (by decide) rfl (by decide)
      (by decide) rfl).2 (by decide)).1⟩

theorem unsynced_add_len (env : Env) (p : TxPool) (tx : Transaction) (strict : Bool)
    (hsync : isChainSynced env.blockInterval (toUint64 env.nowUnix) env.headTimestamp = false)
    (hle : (p.all.Len : Int) ≤ p.options.Limit) :
    ((p.add env tx strict).2.all.Len : Int) ≤ p.options.Limit := by
  unfold TxPool.add
  split
  · exact hle
  rename_i hc
  split
  · exact hle
  split
  · exact hle
  split
  · exact hle
  split
  · exact hle
  split
  · exact hle
  rename_i txObj hres
  have htx := resolveTx_ok env tx txObj hres
  rw [hsync]
  simp only [Bool.false_eq_true, if_false]
  split
  · exact hle
  rename_i hlt
  split
  · exact hle
  rename_i all hadd
  have hf := (index_Add_fresh p.all all txObj _
    (by simpa [TxObject.Hash, htx] using hc) hadd).1
  simp only [txObjectMap.Len, hf, List.length_append, List.length_singleton] at hlt ⊢
  push_cast
  omega

/-- C9: on a chain that is not synced, for a transaction that passes the
shared validation, `add` fails with `pool is full` exactly when the index
holds at least `Limit` objects, and then leaves the pool as it was;
otherwise, the per-account quota permitting, it appends the object, sends
`TxEvent{tx, nil}` and increments the counter. An index of at most `Limit`
objects stays so under any unsynced `add`. -/
theorem add_unsynced (env : Env) (p : TxPool) (tx : Transaction) (strict : Bool)
    (obj : TxObject)
    (hc : p.all.Contains tx.hash = false)
    (hb : (env.isOriginBlocked tx.origin || env.blocklist tx.origin) = false)
    (ht : tx.chainTag = env.chainTag) (hs : tx.size ≤ 65536)
    (hf : env.testFeatures tx env.headTxsFeatures = none)
    (hr : resolveTx env tx = .ok obj)
    (hsync : isChainSynced env.blockInterval (toUint64 env.nowUnix) env.headTimestamp = false) :
    ((p.add env tx strict).1 = some (.txRejectedError "pool is full") ↔
      (p.all.Len : Int) ≥ p.options.Limit) ∧
    ((p.all.Len : Int) ≥ p.options.Limit →
      p.add env tx strict = (some (.txRejectedError "pool is full"), p)) ∧
    ((p.all.Len : Int) < p.options.Limit →
      (p.all.quota obj.Origin : Int) ≠ p.options.LimitPerAccount →
      p.add env tx strict =
        (none, { p with
          all := ⟨p.all.objs ++ [obj]⟩
          txFeed := p.txFeed ++ [⟨tx, none⟩]
          addedAfterWash := (p.addedAfterWash + 1) % 2 ^ 32 })) ∧
    (∀ (tx2 : Transaction) (s2 : Bool), (p.all.Len : Int) ≤ p.options.Limit →
      ((p.add env tx2 s2).2.all.Len : Int) ≤ p.options.Limit) := by
  have hsz : maxTxSize = 65536 := rfl
  have htx := resolveTx_ok env tx obj hr
  have hadd : p.add env tx strict =
      if (p.all.Len : Int) ≥ p.options.Limit then
        (some (.txRejectedError "pool is full"), p)
      else if (p.all.quota obj.Origin : Int) = p.options.LimitPerAccount then
        (some (.txRejectedError quotaExceeded), p)
      else
        (none, { p with
          all := ⟨p.all.objs ++ [obj]⟩
          txFeed := p.txFeed ++ [⟨tx, none⟩]
          addedAfterWash := (p.addedAfterWash + 1) % 2 ^ 32 }) := by
    unfold TxPool.add
    rw [if_neg (by simp [hc]), if_neg (by simp [hb]), if_neg (by simp [ht]),
      if_neg (by rw [hsz]; omega)]
    simp only [hf, hr, hsync, Bool.false_eq_true, if_false]
    rw [index_Add_quota _ _ _ (by simpa [TxObject.Hash, htx] using hc)]
    by_cases hl : (p.all.Len : Int) ≥ p.options.Limit
    · rw [if_pos hl, if_pos hl]
    · rw [if_neg hl, if_neg hl]
      by_cases hq : (p.all.quota obj.Origin : Int) = p.options.LimitPerAccount
      · rw [if_pos hq, if_pos hq]
      · rw [if_neg hq, if_neg hq]
        rfl
  refine ⟨?_, ?_, ?_, ?_⟩
  · rw [hadd]
    constructor
    · intro h
      by_contra hlt
      rw [if_neg hlt] at h
      split at h
      · simp only [Option.some.injEq, PoolError.txRejectedError.injEq] at h
        exact absurd h (by decide)
      · exact absurd h (by simp)
    · intro h
      rw [if_pos h]
  · intro h
    rw [hadd, if_pos h]
  · intro h hq
    rw [hadd, if_neg (by omega), if_neg hq]
  · intro tx2 s2 hle
    exact unsynced_add_len env p tx2 s2 hsync hle

theorem add_unsynced_witness :
    (newPool.add { demoEnv with nowUnix := 5000 } (mkTx 11 5) true).1 ≠
      some (.txRejectedError "pool is full") ∧
    newPool.add { demoEnv with nowUnix := 5000 } (mkTx 11 5) true =
      (none, { newPool with
        all := ⟨[⟨mkTx 11 5, ⟨5, 21000⟩, 50, false, 0⟩]⟩
        txFeed := [⟨mkTx 11 5, none⟩]
        addedAfterWash := 1 }) :=
  ⟨fun h => absurd ((add_unsynced { demoEnv with nowUnix := 5000 } newPool (mkTx 11 5) true
      ⟨mkTx 11 5, ⟨5, 21000⟩, 50, false, 0⟩ (by decide) (by decide) (by decide) (by decide)
      (by decide) rfl (by decide)).1.mp h) (by decide),
    (add_unsynced { demoEnv with nowUnix := 5000 } newPool (mkTx 11 5) true
      ⟨mkTx 11 5, ⟨5, 21000⟩, 50, false, 0⟩ (by decide) (by decide) (by decide) (by decide)
      (by decide) rfl (by decide)).2.2.1 (by decide) (by decide)⟩

/-! ## The error path of `wash` -/

theorem store_tx (m : txObjectMap) (o : TxObject)
    (h : ∀ x ∈ m.objs, x.Hash = o.Hash → x.tx = o.tx) :
    (m.store o).objs.map (fun x => x.tx) = m.objs.map (fun x => x.tx) := by
  unfold txObjectMap.store
  simp only [List.map_map]
  apply List.map_congr_left
  intro x hx
  simp only [Function.comp]
  split
  · rename_i heq
    exact (h x hx (beq_iff_eq.mp heq)).symm
  · rfl

theorem washVisit_foldl_tx (env : Env) (options : Options) (all : List TxObject)
    (hnd : (all.map TxObject.Hash).Nodup) (l : List TxObject) (hl : ∀ y ∈ l, y ∈ all)
    (acc : WashAcc) (hacc : acc.all.objs.map (fun x => x.tx) = all.map (fun x => x.tx)) :
    (l.foldl (washVisit env options) acc).all.objs.map (fun x => x.tx) =
      all.map (fun x => x.tx) := by
  induction l generalizing acc with
  | nil => exact hacc
  | cons y ys ih =>
    rw [List.foldl_cons]
    apply ih (fun z hz => hl z (List.mem_cons_of_mem _ hz))
    rw [washVisit_eq]
    split
    · exact hacc
    · split
      · simp only
        rw [store_tx, hacc]
        intro x hx hxy
        have hx2 : x.tx ∈ all.map (fun x => x.tx) := by
          rw [← hacc]; exact List.mem_map_of_mem _ hx
        obtain ⟨x0, hx0, hx0tx⟩ := List.mem_map.mp hx2
        have hy : y ∈ all := hl y (List.mem_cons_self _ _)
        have hh : x0.Hash = y.Hash := by
          have : x.Hash = x0.Hash := by
            simp only [TxObject.Hash]; rw [← hx0tx]
          rw [← this, hxy]; rfl
        have hxy0 : x0 = y := List.inj_on_of_nodup_map hnd hx0 hy hh
        rw [← hx0tx, hxy0]; rfl
      · exact hacc

theorem washTraverse_tx (env : Env) (p : TxPool) (hwf : p.all.WF) :
    (washTraverse env p).all.objs.map (fun x => x.tx) = p.all.objs.map (fun x => x.tx) :=
  washVisit_foldl_tx env p.options p.all.objs hwf p.all.objs (fun _ h => h) _ rfl

theorem washCut_spec (limit : Int) (n : Nat) (l : List TxObject) (i : Nat) (removed : Int)
    (m : txObjectMap) (hn : n = i + l.length) :
    washCut limit n i l (removed, m) =
      (removed + (min ((l.length : Int) - limit).toNat l.length : Nat),
        ⟨m.objs.filter (fun o => decide (o.Hash ∉
          (l.take ((l.length : Int) - limit).toNat).map TxObject.Hash))⟩) := by
  induction l generalizing i removed m with
  | nil => simp [washCut]
  | cons x xs ih =>
    unfold washCut
    have hlen : ((n : Int) - (i : Int)) = (xs.length : Int) + 1 := by
      rw [hn]; simp only [List.length_cons]; push_cast; omega
    by_cases hle : (n : Int) - (i : Int) ≤ limit
    · rw [if_pos hle]
      have hz : (((x :: xs).length : Int) - limit).toNat = 0 := by
        simp only [List.length_cons]; push_cast; omega
      rw [hz]
      simp
    · rw [if_neg hle, ih (i + 1) _ _ (by rw [hn]; simp only [List.length_cons]; omega)]
      have hc : (((x :: xs).length : Int) - limit).toNat =
          ((xs.length : Int) - limit).toNat + 1 := by
        simp only [List.length_cons]; push_cast; omega
      rw [hc, List.take_succ_cons]
      simp only [txObjectMap.Remove, List.filter_filter, List.map_cons, List.mem_cons, not_or,
        List.length_cons]
      refine Prod.ext ?_ ?_
      · simp only
        have : min (((xs.length : Int) - limit).toNat + 1) (xs.length + 1) =
            min ((xs.length : Int) - limit).toNat xs.length + 1 := by omega
        rw [this]; push_cast; omega
      · simp only [txObjectMap.mk.injEq]
        apply List.filter_congr
        intro o _
        by_cases h1 : o.Hash = x.Hash <;>
          by_cases h2 : o.Hash ∈ (xs.take ((xs.length : Int) - limit).toNat).map TxObject.Hash <;>
          simp [h1, h2]

theorem filter_append_hash (A B : List Transaction)
    (hnd : ((A ++ B).map (fun t => t.hash)).Nodup) :
    (A ++ B).filter (fun t => decide (t.hash ∉ A.map (fun t => t.hash))) = B := by
  rw [List.map_append] at hnd
  have hdisj := (List.nodup_append.mp hnd).2.2
  have h1 : A.filter (fun t => decide (t.hash ∉ A.map (fun t => t.hash))) = [] := by
    rw [List.filter_eq_nil_iff]
    intro a ha
    simp only [decide_eq_true_eq, not_not]
    exact List.mem_map_of_mem _ ha
  have h2 : B.filter (fun t => decide (t.hash ∉ A.map (fun t => t.hash))) = B := by
    rw [List.filter_eq_self]
    intro a ha
    simp only [decide_eq_true_eq]
    intro hmem
    exact hdisj hmem (List.mem_map_of_mem _ ha)
  rw [List.filter_append, h1, h2, List.nil_append]

theorem filter_take_hash (L : List Transaction) (hnd : (L.map (fun t => t.hash)).Nodup)
    (c : Nat) :
    L.filter (fun t => decide (t.hash ∉ (L.take c).map (fun t => t.hash))) = L.drop c := by
  have h := filter_append_hash (L.take c) (L.drop c) (by rw [List.take_append_drop]; exact hnd)
  rw [List.take_append_drop] at h
  exact h

theorem washReturn_err (p : TxPool) (T : List TxObject) (index : txObjectMap)
    (feed : List TxEvent) (e : String) (hwf : p.all.WF)
    (hidx : index.objs.map (fun x => x.tx) = p.all.objs.map (fun x => x.tx)) :
    (washReturn p T index feed [] (some e)).2.all.objs.map (fun x => x.tx) =
      (p.all.objs.drop ((p.all.Len : Int) - p.options.Limit).toNat).map (fun x => x.tx) ∧
    (washReturn p T index feed [] (some e)).1.removed =
      (min ((p.all.Len : Int) - p.options.Limit).toNat p.all.Len : Nat) := by
  have hcut := washCut_spec p.options.Limit p.all.objs.length p.all.objs 0 0 index (by omega)
  simp only [washReturn, washDeferred, txObjectMap.ToTxObjects, txObjectMap.Len, hcut]
  refine ⟨?_, by simp⟩
  have hnd : ((p.all.objs.map (fun x => x.tx)).map (fun t => t.hash)).Nodup := by
    rw [List.map_map]; exact hwf
  have hH : (p.all.objs.take ((p.all.objs.length : Int) - p.options.Limit).toNat).map
      TxObject.Hash =
      ((p.all.objs.map (fun x => x.tx)).take
        ((p.all.objs.length : Int) - p.options.Limit).toNat).map (fun t => t.hash) := by
    rw [← List.map_take, List.map_map]; rfl
  rw [hH, List.map_drop, ← filter_take_hash _ hnd, ← hidx, List.filter_map]
  rfl

theorem wash_err_inv (env : Env) (p p2 : TxPool) (r : WashReturn) (hwf : p.all.WF)
    (h : p.wash env = some (r, p2)) (herr : r.err ≠ none) :
    ∃ (T : List TxObject) (index : txObjectMap) (e : String),
      index.objs.map (fun x => x.tx) = p.all.objs.map (fun x => x.tx) ∧
      (r, p2) = washReturn p T index p.txFeed [] (some e) := by
  unfold TxPool.wash at h
  cases hN : env.newState with
  | some e =>
    simp only [hN, Option.some.injEq] at h
    exact ⟨_, _, _, rfl, h.symm⟩
  | none =>
    cases hS : env.stateErr with
    | some e =>
      simp only [hN, hS, Option.some.injEq] at h
      exact ⟨_, _, _, washTraverse_tx env p hwf, h.symm⟩
    | none =>
      cases hK : env.seekerErr with
      | some e =>
        simp only [hN, hS, hK, Option.some.injEq] at h
        exact ⟨_, _, _, washTraverse_tx env p hwf, h.symm⟩
      | none =>
        simp only [hN, hS, hK] at h
        split at h
        · exact absurd h (by simp)
        · simp only [Option.some.injEq] at h
          have h2 := congrArg (fun x => x.1.err) h
          simp only [washReturn] at h2
          exact absurd h2.symm herr

theorem wash_err_returns (env : Env) (p : TxPool)
    (h : env.newState ≠ none ∨ env.stateErr ≠ none ∨ env.seekerErr ≠ none) :
    ∃ r p2, p.wash env = some (r, p2) ∧ r.err ≠ none := by
  unfold TxPool.wash
  cases hN : env.newState with
  | some e => exact ⟨_, _, rfl, by simp [washReturn]⟩
  | none =>
    cases hS : env.stateErr with
    | some e => exact ⟨_, _, rfl, by simp [washReturn]⟩
    | none =>
      cases hK : env.seekerErr with
      | some e => exact ⟨_, _, rfl, by simp [washReturn]⟩
      | none => simp [hN, hS, hK] at h

/-- C10: a failing state creation, state error or seeker error makes `wash`
return an error, and whenever `wash` returns an error the index is cut to
`Limit` from the old end: the first `max(0, n - Limit)` transactions of the
listing taken at the start are gone, the newest `min(n, Limit)` remain in
their order, and an object collected in `toRemove` that is among the newest
stays in the index. -/
theorem wash_error_fallback (env : Env) (p : TxPool) (hwf : p.all.WF) :
    ((env.newState ≠ none ∨ env.stateErr ≠ none ∨ env.seekerErr ≠ none) →
      ∃ r p2, p.wash env = some (r, p2) ∧ r.err ≠ none) ∧
    (∀ r p2, p.wash env = some (r, p2) → r.err ≠ none →
      p2.all.ToTxs =
        (p.all.ToTxObjects.drop ((p.all.Len : Int) - p.options.Limit).toNat).map
          (fun x => x.tx) ∧
      p.all.ToTxs =
        (p.all.ToTxObjects.take ((p.all.Len : Int) - p.options.Limit).toNat).map
          (fun x => x.tx) ++ p2.all.ToTxs ∧
      p2.all.Len = (min (p.all.Len : Int) p.options.Limit).toNat ∧
      (0 ≤ p.options.Limit → (p2.all.Len : Int) ≤ p.options.Limit) ∧
      (∀ o ∈ (washTraverse env p).toRemove,
        o ∈ p.all.ToTxObjects.drop ((p.all.Len : Int) - p.options.Limit).toNat →
        p2.all.Contains o.Hash = true)) := by
  refine ⟨wash_err_returns env p, ?_⟩
  intro r p2 h herr
  obtain ⟨T, index, e, hidx, hret⟩ := wash_err_inv env p p2 r hwf h herr
  have h1 := (washReturn_err p T index p.txFeed e hwf hidx).1
  rw [← hret] at h1
  simp only at h1
  have hToTxs : p2.all.ToTxs =
      (p.all.ToTxObjects.drop ((p.all.Len : Int) - p.options.Limit).toNat).map
        (fun x => x.tx) := h1
  have hlen : p2.all.Len = (min (p.all.Len : Int) p.options.Limit).toNat := by
    have := congrArg List.length hToTxs
    simp only [txObjectMap.ToTxs, txObjectMap.ToTxObjects, List.length_map,
      List.length_drop] at this
    simp only [txObjectMap.Len] at this ⊢
    omega
  refine ⟨hToTxs, ?_, hlen, ?_, ?_⟩
  · rw [hToTxs, ← List.map_append, List.take_append_drop]
    rfl
  · intro hl
    rw [hlen]; omega
  · intro o _ ho
    have hmem : o.tx ∈ p2.all.ToTxs := by
      rw [hToTxs]; exact List.mem_map_of_mem _ ho
    obtain ⟨x, hx, hxo⟩ := List.mem_map.mp hmem
    simp only [txObjectMap.Contains, List.any_eq_true, beq_iff_eq]
    exact ⟨x, hx, by simp only [TxObject.Hash]; rw [hxo]⟩

theorem wash_error_fallback_witness :
    demoPool.all.WF ∧
    ({ demoEnv with seekerErr := some "closed" } : Env).seekerErr ≠ none ∧
    ∃ r p2, demoPool.wash { demoEnv with seekerErr := some "closed" } = some (r, p2) ∧
      r.err ≠ none :=
  ⟨by decide, by decide,
    (wash_error_fallback { demoEnv with seekerErr := some "closed" } demoPool (by decide)).1
      (Or.inr (Or.inr (by decide)))⟩

/-! ## The adoption loop of `Solo.packing` -/

theorem adoptLoop_offered {F : Type} (adopt : F → Transaction → F × Option AdoptError)
    (pendingTxs : List Transaction) (st : Adoption F) :
    (adoptLoop adopt pendingTxs st).offered = st.offered ++ pendingTxs := by
  induction pendingTxs generalizing st with
  | nil => simp [adoptLoop]
  | cons tx rest ih =>
    unfold adoptLoop
    simp only
    split
    · rw [ih]; simp
    · split
      · rw [ih]; simp
      · rw [ih]; simp

/-- C7, the behaviour of the source: every pending transaction is passed to
`flow.Adopt`, in order, whatever `Adopt` returns; with a flow that reports
the gas limit reached at the second transaction, the third is still passed
to it and, refused with another error, marked for removal. -/
theorem packing_adopts_after_gas_limit :
    (∀ (F : Type) (adopt : F → Transaction → F × Option AdoptError)
      (pendingTxs : List Transaction) (flow : F),
      (adoptLoop adopt pendingTxs ⟨flow, [], []⟩).offered = pendingTxs) ∧
    (demoAdopt 0 (mkTx 1 1)).2 = none ∧
    (demoAdopt 21000 (mkTx 2 1)).2 = some .gasLimitReached ∧
    (adoptLoop demoAdopt [mkTx 1 1, mkTx 2 1, mkTx 3 1] ⟨0, [], []⟩).offered =
      [mkTx 1 1, mkTx 2 1, mkTx 3 1] ∧
    (adoptLoop demoAdopt [mkTx 1 1, mkTx 2 1, mkTx 3 1] ⟨0, [], []⟩).txsToRemove =
      [mkTx 1 1, mkTx 3 1] := by
  refine ⟨?_, by decide, by decide, by decide, by decide⟩
  intro F adopt pendingTxs flow
  rw [adoptLoop_offered]
  rfl

/-! ## Rounding to 53 bits -/

theorem log2Aux_spec (fuel n : Nat) (hn : 1 ≤ n) (hf : n ≤ fuel) :
    2 ^ log2Aux fuel n ≤ n ∧ n < 2 ^ (log2Aux fuel n + 1) := by
  induction fuel generalizing n with
  | zero => omega
  | succ f ih =>
    unfold log2Aux
    split
    · simp; omega
    · rename_i h2
      have h3 := ih (n / 2) (by omega) (by omega)
      rw [pow_succ, pow_succ]
      constructor
      · omega
      · omega

theorem log2_spec (n : Nat) (hn : 1 ≤ n) : 2 ^ log2 n ≤ n ∧ n < 2 ^ (log2 n + 1) :=
  log2Aux_spec n n hn (le_refl n)

theorem roundHalfEven_spec (N D : Nat) (hD : 0 < D) :
    2 * (roundHalfEven N D * D) ≤ 2 * N + D ∧ 2 * N ≤ 2 * (roundHalfEven N D * D) + D ∧
    N / D ≤ roundHalfEven N D := by
  have h1 := Nat.div_add_mod N D
  have h2 := Nat.mod_lt N hD
  have h3 : D * (N / D) = N / D * D := Nat.mul_comm _ _
  unfold roundHalfEven
  simp only
  split
  · refine ⟨by omega, by omega, le_refl _⟩
  · split
    · rw [Nat.add_mul]; refine ⟨by omega, by omega, by omega⟩
    · split
      · refine ⟨by omega, by omega, le_refl _⟩
      · rw [Nat.add_mul]; refine ⟨by omega, by omega, by omega⟩

theorem scaled_cast (n d : Nat) (e : Int) :
    ((n * 2 ^ (-e).toNat : Nat) : ℚ) / ((d * 2 ^ e.toNat : Nat) : ℚ) =
      (n : ℚ) / d * (2 : ℚ) ^ (-e) := by
  obtain ⟨k, rfl | rfl⟩ := Int.eq_nat_or_neg e
  · have h1 : (-(k : Int)).toNat = 0 := by omega
    have h2 : ((k : Int)).toNat = k := by omega
    rw [h1, h2, zpow_neg, zpow_natCast]
    push_cast
    field_simp
  · have h1 : (-(-(k : Int))).toNat = k := by omega
    have h2 : (-(k : Int)).toNat = 0 := by omega
    rw [h1, h2, neg_neg, zpow_natCast]
    push_cast
    field_simp

theorem exp53_range (n d : Nat) (hn : 0 < n) (hd : 0 < d) :
    (2 : ℚ) ^ 52 ≤ (n : ℚ) / d * (2 : ℚ) ^ (-exp53 n d) ∧
    (n : ℚ) / d * (2 : ℚ) ^ (-exp53 n d) < 2 ^ 53 := by
  obtain ⟨hn1, hn2⟩ := log2_spec n hn
  obtain ⟨hd1, hd2⟩ := log2_spec d hd
  have hnq1 : (2 : ℚ) ^ (log2 n : Int) ≤ n := by
    rw [zpow_natCast]; exact_mod_cast hn1
  have hnq2 : (n : ℚ) < (2 : ℚ) ^ ((log2 n : Int) + 1) := by
    rw [show ((log2 n : Int) + 1) = ((log2 n + 1 : Nat) : Int) by push_cast; rfl, zpow_natCast]
    exact_mod_cast hn2
  have hdq1 : (2 : ℚ) ^ (log2 d : Int) ≤ d := by
    rw [zpow_natCast]; exact_mod_cast hd1
  have hdq2 : (d : ℚ) < (2 : ℚ) ^ ((log2 d : Int) + 1) := by
    rw [show ((log2 d : Int) + 1) = ((log2 d + 1 : Nat) : Int) by push_cast; rfl, zpow_natCast]
    exact_mod_cast hd2
  have hdpos : (0 : ℚ) < d := by exact_mod_cast hd
  have h2 : (2 : ℚ) ≠ 0 := by norm_num
  set ln : Int := (log2 n : Int) with hln
  set ld : Int := (log2 d : Int) with hld
  -- bounds at the first exponent
  have hpos : ∀ k : Int, (0 : ℚ) < (2 : ℚ) ^ k := fun k => zpow_pos (by norm_num) k
  have hlow : (2 : ℚ) ^ 51 < (n : ℚ) / d * (2 : ℚ) ^ (-(ln - ld - 52)) := by
    have e1 : (2 : ℚ) ^ (-(ln - ld - 52)) = (2 : ℚ) ^ (52 : Int) * (2 : ℚ) ^ ld / (2 : ℚ) ^ ln := by
      rw [show -(ln - ld - 52) = (52 : Int) + ld + -ln by ring, zpow_add₀ h2, zpow_add₀ h2,
        zpow_neg]
      field_simp
    rw [e1]
    have e2 : (2 : ℚ) ^ (ld + 1) = 2 * (2 : ℚ) ^ ld := by
      rw [zpow_add₀ h2, zpow_one]; ring
    rw [e2] at hdq2
    have hld0 := hpos ld
    have hln0 := hpos ln
    rw [show (n : ℚ) / d * ((2 : ℚ) ^ (52 : Int) * (2 : ℚ) ^ ld / (2 : ℚ) ^ ln) =
      ((n : ℚ) * (2 : ℚ) ^ (52 : Int) * (2 : ℚ) ^ ld) / (d * (2 : ℚ) ^ ln) by
      field_simp; ring]
    rw [lt_div_iff₀ (by positivity)]
    have h52 : (2 : ℚ) ^ (52 : Int) = 2 ^ 51 * 2 := by norm_num
    rw [h52]
    nlinarith [mul_le_mul_of_nonneg_right hnq1 hld0.le, mul_pos hld0 hln0,
      mul_lt_mul_of_pos_right hdq2 hln0]
  have hupp : (n : ℚ) / d * (2 : ℚ) ^ (-(ln - ld - 52)) < (2 : ℚ) ^ 53 := by
    have e1 : (2 : ℚ) ^ (-(ln - ld - 52)) = (2 : ℚ) ^ (52 : Int) * (2 : ℚ) ^ ld / (2 : ℚ) ^ ln := by
      rw [show -(ln - ld - 52) = (52 : Int) + ld + -ln by ring, zpow_add₀ h2, zpow_add₀ h2,
        zpow_neg]
      field_simp
    rw [e1]
    have e2 : (2 : ℚ) ^ (ln + 1) = 2 * (2 : ℚ) ^ ln := by
      rw [zpow_add₀ h2, zpow_one]; ring
    rw [e2] at hnq2
    have hld0 := hpos ld
    have hln0 := hpos ln
    rw [show (n : ℚ) / d * ((2 : ℚ) ^ (52 : Int) * (2 : ℚ) ^ ld / (2 : ℚ) ^ ln) =
      ((n : ℚ) * (2 : ℚ) ^ (52 : Int) * (2 : ℚ) ^ ld) / (d * (2 : ℚ) ^ ln) by
      field_simp; ring]
    rw [div_lt_iff₀ (by positivity)]
    have h52 : (2 : ℚ) ^ (52 : Int) = 2 ^ 52 := by norm_num
    have h53 : (2 : ℚ) ^ 53 = 2 ^ 52 * 2 := by norm_num
    rw [h52, h53]
    nlinarith [mul_lt_mul_of_pos_right hnq2 hld0, mul_pos hld0 hln0,
      mul_le_mul_of_nonneg_right hdq1 hln0.le]
  unfold exp53
  simp only
  rw [← hln, ← hld]
  have hcond : (n * 2 ^ (-(ln - ld - 52)).toNat < 2 ^ 52 * (d * 2 ^ (ln - ld - 52).toNat)) ↔
      (n : ℚ) / d * (2 : ℚ) ^ (-(ln - ld - 52)) < 2 ^ 52 := by
    rw [← scaled_cast, div_lt_iff₀ (by positivity)]
    constructor
    · intro h; exact_mod_cast h
    · intro h; exact_mod_cast h
  split
  · rename_i hc
    have hc2 := hcond.mp hc
    have e3 : (2 : ℚ) ^ (-(ln - ld - 52 - 1)) = (2 : ℚ) ^ (-(ln - ld - 52)) * 2 := by
      rw [show -(ln - ld - 52 - 1) = -(ln - ld - 52) + 1 by ring, zpow_add₀ h2, zpow_one]
    rw [e3]
    constructor
    · have : (2 : ℚ) ^ 52 = 2 ^ 51 * 2 := by norm_num
      rw [this]; nlinarith
    · have : (2 : ℚ) ^ 53 = 2 ^ 52 * 2 := by norm_num
      rw [this]; nlinarith
  · rename_i hc
    have hc2 : ¬ ((n : ℚ) / d * (2 : ℚ) ^ (-(ln - ld - 52)) < 2 ^ 52) := fun h => hc (hcond.mpr h)
    exact ⟨not_lt.mp hc2, hupp⟩

theorem round53_spec (n d : Nat) (s : Int) (hn : 0 < n) (hd : 0 < d) :
    (round53 n d s).2 = exp53 n d + s ∧
    |((round53 n d s).1 : ℚ) - (n : ℚ) / d * (2 : ℚ) ^ (-exp53 n d)| ≤ 1 / 2 ∧
    (∀ K : Nat, (K : ℚ) ≤ (n : ℚ) / d * (2 : ℚ) ^ (-exp53 n d) → K ≤ (round53 n d s).1) := by
  unfold round53
  rw [if_neg (by omega)]
  simp only
  have hD : 0 < d * 2 ^ (exp53 n d).toNat := by positivity
  obtain ⟨h1, h2, h3⟩ := roundHalfEven_spec (n * 2 ^ (-exp53 n d).toNat)
    (d * 2 ^ (exp53 n d).toNat) hD
  have hsc := scaled_cast n d (exp53 n d)
  set N := n * 2 ^ (-exp53 n d).toNat with hN
  set D := d * 2 ^ (exp53 n d).toNat with hDdef
  set m := roundHalfEven N D with hm
  have hDq : (0 : ℚ) < (D : ℚ) := by exact_mod_cast hD
  have h1q : 2 * ((m : ℚ) * D) ≤ 2 * N + D := by exact_mod_cast h1
  have h2q : 2 * (N : ℚ) ≤ 2 * ((m : ℚ) * D) + D := by exact_mod_cast h2
  rw [← hsc]
  refine ⟨trivial, ?_, ?_⟩
  · rw [abs_le]
    constructor
    · rw [neg_le_sub_iff_le_add, div_le_iff₀ hDq]
      nlinarith
    · rw [sub_le_iff_le_add, ← sub_le_iff_le_add', le_div_iff₀ hDq]
      nlinarith
  · intro K hK
    rw [le_div_iff₀ hDq] at hK
    have hK2 : K * D ≤ N := by exact_mod_cast hK
    exact le_trans ((Nat.le_div_iff_mul_le hD).mpr hK2) h3

/-- The number `m * 2 ^ e` of a rounding result. -/
theorem round53_val (n d : Nat) (s : Int) (hn : 0 < n) (hd : 0 < d) :
    |((round53 n d s).1 : ℚ) * (2 : ℚ) ^ (round53 n d s).2 - (n : ℚ) / d * (2 : ℚ) ^ s| ≤
      (n : ℚ) / d * (2 : ℚ) ^ s / 2 ^ 53 ∧
    (∀ K : Nat, (n : ℚ) / d * (2 : ℚ) ^ s < 2 ^ 53 → (K : ℚ) ≤ (n : ℚ) / d * (2 : ℚ) ^ s →
      (K : ℚ) ≤ ((round53 n d s).1 : ℚ) * (2 : ℚ) ^ (round53 n d s).2) ∧
    (∀ K : Nat, (n : ℚ) / d * (2 : ℚ) ^ s < 2 ^ 53 → (n : ℚ) / d * (2 : ℚ) ^ s = K →
      ((round53 n d s).1 : ℚ) * (2 : ℚ) ^ (round53 n d s).2 = K) := by
  obtain ⟨he, habs, hK⟩ := round53_spec n d s hn hd
  obtain ⟨hr1, hr2⟩ := exp53_range n d hn hd
  have h2 : (2 : ℚ) ≠ 0 := by norm_num
  set e := exp53 n d with hedef
  set m := (round53 n d s).1 with hmdef
  set t := (n : ℚ) / d * (2 : ℚ) ^ (-e) with ht
  have hP : (0 : ℚ) < (2 : ℚ) ^ (e + s) := zpow_pos (by norm_num) _
  have hx : (n : ℚ) / d * (2 : ℚ) ^ s = t * (2 : ℚ) ^ (e + s) := by
    rw [ht, mul_assoc, ← zpow_add₀ h2]
    congr 2
    ring
  rw [he, hx]
  have hsmall : t * (2 : ℚ) ^ (e + s) < 2 ^ 53 → e + s ≤ 0 := by
    intro hlt
    have h3 : (2 : ℚ) ^ (e + s) < (2 : ℚ) ^ (1 : Int) := by
      rw [zpow_one]
      have : (2 : ℚ) ^ 53 = 2 ^ 52 * 2 := by norm_num
      nlinarith
    have := (zpow_lt_zpow_iff_right₀ (by norm_num : (1 : ℚ) < 2)).mp h3
    omega
  have hint : ∀ K : Nat, e + s ≤ 0 →
      (K : ℚ) = ((K * 2 ^ (-(e + s)).toNat : Nat) : ℚ) * (2 : ℚ) ^ (e + s) := by
    intro K hle
    obtain ⟨j, hj⟩ := Int.exists_eq_neg_ofNat hle
    rw [hj]
    have : (- -(j : Int)).toNat = j := by omega
    rw [this, zpow_neg, zpow_natCast]
    push_cast
    field_simp
  refine ⟨?_, ?_, ?_⟩
  · have h4 : (m : ℚ) * (2 : ℚ) ^ (e + s) - t * (2 : ℚ) ^ (e + s) =
        ((m : ℚ) - t) * (2 : ℚ) ^ (e + s) := by ring
    rw [h4, abs_mul, abs_of_pos hP]
    have h5 : |(m : ℚ) - t| * (2 : ℚ) ^ (e + s) ≤ 1 / 2 * (2 : ℚ) ^ (e + s) :=
      mul_le_mul_of_nonneg_right habs hP.le
    have h6 : (1 : ℚ) / 2 * (2 : ℚ) ^ (e + s) ≤ t * (2 : ℚ) ^ (e + s) / 2 ^ 53 := by
      rw [le_div_iff₀ (by positivity)]
      have : (2 : ℚ) ^ 53 = 2 ^ 52 * 2 := by norm_num
      rw [this]
      nlinarith
    exact le_trans h5 h6
  · intro K hlt hle
    have hes := hsmall hlt
    have hKt : ((K * 2 ^ (-(e + s)).toNat : Nat) : ℚ) ≤ t := by
      rw [hint K hes] at hle
      exact le_of_mul_le_mul_right hle hP
    have := hK _ hKt
    rw [hint K hes]
    exact mul_le_mul_of_nonneg_right (by exact_mod_cast this) hP.le
  · intro K hlt heq
    have hes := hsmall hlt
    have hKt : ((K * 2 ^ (-(e + s)).toNat : Nat) : ℚ) = t := by
      rw [hint K hes] at heq
      exact (mul_right_cancel₀ (ne_of_gt hP) heq).symm
    rw [← hKt] at habs
    have hmk : (m : Int) = ((K * 2 ^ (-(e + s)).toNat : Nat) : Int) := by
      have h7 : |((m : Int) : ℚ) - (((K * 2 ^ (-(e + s)).toNat : Nat) : Int) : ℚ)| ≤ 1 / 2 := by
        exact_mod_cast habs
      rw [← Int.cast_sub, ← Int.cast_abs] at h7
      have h8 : |(m : Int) - ((K * 2 ^ (-(e + s)).toNat : Nat) : Int)| < 1 := by
        have : ((|(m : Int) - ((K * 2 ^ (-(e + s)).toNat : Nat) : Int)| : Int) : ℚ) < 1 := by
          linarith
        exact_mod_cast this
      have h9 := abs_lt.mp h8
      omega
    have hmk2 : (m : ℚ) = ((K * 2 ^ (-(e + s)).toNat : Nat) : ℚ) := by exact_mod_cast hmk
    rw [hmk2, ← hint K hes]

/-! ## `float64` operations on values that are not negative -/

/-- The absolute value `m * 2 ^ e` of a `float64`. -/
theorem F64.val_pos (x : F64) (h : x.neg = false) : x.val = (x.m : ℚ) * (2 : ℚ) ^ x.e := by
  unfold F64.val
  rw [h]
  simp

theorem F64.ofNat_val (G : Nat) (hG : G < 2 ^ 53) :
    (F64.ofNat G).neg = false ∧ (F64.ofNat G).val = G := by
  refine ⟨rfl, ?_⟩
  rw [F64.val_pos _ rfl]
  rcases Nat.eq_zero_or_pos G with h0 | hpos
  · subst h0
    simp [F64.ofNat, F64.ofRatio, round53]
  · have hx : (G : ℚ) / (1 : Nat) * (2 : ℚ) ^ (0 : Int) = G := by simp
    have hlt : (G : ℚ) / (1 : Nat) * (2 : ℚ) ^ (0 : Int) < 2 ^ 53 := by
      rw [hx]; exact_mod_cast hG
    exact (round53_val G 1 0 hpos (by norm_num)).2.2 G hlt hx

theorem F64.ofInt_val (x : Int) (h0 : 0 ≤ x) (hx : x < 2 ^ 53) :
    (F64.ofInt x).neg = false ∧ (F64.ofInt x).val = x := by
  obtain ⟨n, rfl⟩ := Int.eq_ofNat_of_zero_le h0
  have hn : n < 2 ^ 53 := by exact_mod_cast hx
  have h1 : F64.ofInt (n : Int) = F64.ofNat n := by
    unfold F64.ofInt F64.ofNat F64.ofRatio
    simp
  rw [h1]
  exact ⟨(F64.ofNat_val n hn).1, by rw [(F64.ofNat_val n hn).2]; simp⟩

theorem F64.m_pos_of_val_pos (x : F64) (h : x.neg = false) (hv : 0 < x.val) : 0 < x.m := by
  rw [F64.val_pos x h] at hv
  rcases Nat.eq_zero_or_pos x.m with h0 | hpos
  · rw [h0] at hv; simp at hv
  · exact hpos

theorem F64.mul_val (x y : F64) (hx : x.neg = false) (hy : y.neg = false)
    (hxv : 0 < x.val) (hyv : 0 < y.val) :
    (F64.mul x y).neg = false ∧
    |(F64.mul x y).val - x.val * y.val| ≤ x.val * y.val / 2 ^ 53 ∧
    (∀ K : Nat, x.val * y.val < 2 ^ 53 → (K : ℚ) ≤ x.val * y.val →
      (K : ℚ) ≤ (F64.mul x y).val) := by
  have hxm := F64.m_pos_of_val_pos x hx hxv
  have hym := F64.m_pos_of_val_pos y hy hyv
  have hneg : (F64.mul x y).neg = false := by
    simp [F64.mul, hx, hy]
  have hprod : x.val * y.val =
      ((x.m * y.m : Nat) : ℚ) / (1 : Nat) * (2 : ℚ) ^ (x.e + y.e) := by
    rw [F64.val_pos x hx, F64.val_pos y hy, zpow_add₀ (by norm_num : (2 : ℚ) ≠ 0)]
    push_cast
    ring
  have hval : (F64.mul x y).val = ((round53 (x.m * y.m) 1 (x.e + y.e)).1 : ℚ) *
      (2 : ℚ) ^ (round53 (x.m * y.m) 1 (x.e + y.e)).2 := by
    rw [F64.val_pos _ hneg]
    rfl
  obtain ⟨h1, h2, _⟩ := round53_val (x.m * y.m) 1 (x.e + y.e) (Nat.mul_pos hxm hym)
    (by norm_num)
  rw [hval, hprod]
  exact ⟨hneg, h1, h2⟩

theorem F64.div_val (x y : F64) (hx : x.neg = false) (hy : y.neg = false)
    (hxv : 0 < x.val) (hyv : 0 < y.val) :
    ∃ z, F64.div x y = some z ∧ z.neg = false ∧
      |z.val - x.val / y.val| ≤ x.val / y.val / 2 ^ 53 := by
  have hxm := F64.m_pos_of_val_pos x hx hxv
  have hym := F64.m_pos_of_val_pos y hy hyv
  refine ⟨_, by unfold F64.div; rw [if_neg (by omega)], by simp [hx, hy], ?_⟩
  have hquot : x.val / y.val = (x.m : ℚ) / (y.m : ℚ) * (2 : ℚ) ^ (x.e - y.e) := by
    rw [F64.val_pos x hx, F64.val_pos y hy, zpow_sub₀ (by norm_num : (2 : ℚ) ≠ 0)]
    have : (0 : ℚ) < (2 : ℚ) ^ y.e := zpow_pos (by norm_num) _
    have : (0 : ℚ) < (y.m : ℚ) := by exact_mod_cast hym
    field_simp
  rw [F64.val_pos _ (by simp [hx, hy]), hquot]
  exact (round53_val x.m y.m (x.e - y.e) hxm hym).1

theorem F64.truncAbs_spec (x : F64) :
    (x.truncAbs : ℚ) ≤ (x.m : ℚ) * (2 : ℚ) ^ x.e ∧
    (x.m : ℚ) * (2 : ℚ) ^ x.e < (x.truncAbs : ℚ) + 1 := by
  unfold F64.truncAbs
  obtain ⟨k, hk | hk⟩ := Int.eq_nat_or_neg x.e
  · rw [hk, if_pos (by omega)]
    have : ((k : Int)).toNat = k := by omega
    rw [this, zpow_natCast]
    push_cast
    constructor
    · exact le_refl _
    · linarith
  · rcases Nat.eq_zero_or_pos k with h0 | hpos
    · subst h0
      rw [hk]
      simp
    · rw [hk, if_neg (by omega)]
      have : (-(-(k : Int))).toNat = k := by omega
      rw [this, zpow_neg, zpow_natCast]
      have hp : 0 < 2 ^ k := by positivity
      have hpq : (0 : ℚ) < (2 : ℚ) ^ k := by positivity
      have h1 := Nat.div_mul_le_self x.m (2 ^ k)
      have h2 := Nat.lt_div_mul_add (a := x.m) hp
      constructor
      · rw [← div_eq_mul_inv, le_div_iff₀ hpq]
        exact_mod_cast h1
      · rw [← div_eq_mul_inv, div_lt_iff₀ hpq]
        have : ((x.m : Nat) : ℚ) < ((x.m / 2 ^ k * 2 ^ k + 2 ^ k : Nat) : ℚ) := by
          exact_mod_cast h2
        push_cast at this
        linarith

/-- The truncation of a value that lies between a natural number and its
successor. -/
theorem F64.truncAbs_eq (x : F64) (hx : x.neg = false) (k : Nat) (h1 : (k : ℚ) ≤ x.val)
    (h2 : x.val < (k : ℚ) + 1) : x.truncAbs = k := by
  obtain ⟨t1, t2⟩ := F64.truncAbs_spec x
  rw [← F64.val_pos x hx] at t1 t2
  have a1 : (x.truncAbs : ℚ) < (k : ℚ) + 1 := lt_of_le_of_lt t1 h2
  have a2 : (k : ℚ) < (x.truncAbs : ℚ) + 1 := lt_of_le_of_lt h1 t2
  have b1 : x.truncAbs < k + 1 := by exact_mod_cast a1
  have b2 : k < x.truncAbs + 1 := by exact_mod_cast a2
  omega

/-! ## `reCalculateGasLimit` -/

theorem ofRatio_101_100 : F64.ofRatio 101 100 = ⟨false, 4548635623644201, -52⟩ := by
  decide

theorem F64.toUint64_eq (x : F64) (hx : x.neg = false) (k : Nat) (hk : k < 2 ^ 64)
    (h1 : (k : ℚ) ≤ x.val) (h2 : x.val < (k : ℚ) + 1) : x.toUint64 = some k := by
  have ht := F64.truncAbs_eq x hx k h1 h2
  unfold F64.toUint64
  rw [if_neg (by simp [hx]), if_pos (by rw [ht]; exact hk), ht]

theorem reCalculateGasLimit_le (a b : Int) (G : Nat) (hab : a ≤ b) (hG : G < 2 ^ 46) :
    reCalculateGasLimit a b G = some (101 * G / 100) := by
  unfold reCalculateGasLimit
  simp only
  rw [if_pos hab]
  rcases Nat.eq_zero_or_pos G with h0 | hpos
  · subst h0
    decide
  · obtain ⟨hxn, hxv⟩ := F64.ofNat_val G (by omega)
    have hcn : (F64.ofRatio 101 100).neg = false := by rw [ofRatio_101_100]
    have hcv : (F64.ofRatio 101 100).val = 4548635623644201 / 4503599627370496 := by
      rw [F64.val_pos _ hcn, ofRatio_101_100]
      norm_num
    have hGq : (0 : ℚ) < (G : ℚ) := by exact_mod_cast hpos
    have hGq2 : (G : ℚ) ≤ 70368744177663 := by
      have : G ≤ 70368744177663 := by omega
      exact_mod_cast this
    obtain ⟨hzn, hzerr, hzK⟩ := F64.mul_val (F64.ofNat G) (F64.ofRatio 101 100) hxn hcn
      (by rw [hxv]; exact hGq) (by rw [hcv]; norm_num)
    rw [hxv, hcv] at hzerr hzK
    have hk1 : 100 * (101 * G / 100) ≤ 101 * G := Nat.mul_div_le _ _
    have hk2 : 101 * G < 100 * (101 * G / 100) + 100 := by
      have := Nat.lt_div_mul_add (a := 101 * G) (b := 100) (by norm_num)
      omega
    have hk1q : (100 : ℚ) * ((101 * G / 100 : Nat) : ℚ) ≤ 101 * (G : ℚ) := by exact_mod_cast hk1
    have hk2q : (101 : ℚ) * (G : ℚ) + 1 ≤ 100 * ((101 * G / 100 : Nat) : ℚ) + 100 := by
      have : 101 * G + 1 ≤ 100 * (101 * G / 100) + 100 := hk2
      exact_mod_cast this
    apply F64.toUint64_eq _ hzn
    · omega
    · apply hzK
      · norm_num
        linarith
      · linarith
    · have := (abs_le.mp hzerr).2
      norm_num at this ⊢
      linarith

theorem F64.toInt64_eq (x : F64) (hx : x.neg = false) (k : Nat) (hk : k < 2 ^ 63)
    (h1 : (k : ℚ) ≤ x.val) (h2 : x.val < (k : ℚ) + 1) : x.toInt64 = some (k : Int) := by
  have ht := F64.truncAbs_eq x hx k h1 h2
  unfold F64.toInt64
  simp only [hx, ht, Bool.false_eq_true, if_false]
  rw [if_pos (by constructor <;> omega)]

/-- The product `p * a` of the computed ratio `p` and the divisor differs from
`100 * b` by less than one. -/
theorem ratio_error (a b : Int) (hb : 0 < b) (hab : b < a) (ha : a < 2 ^ 45) :
    ∃ p : F64, F64.div (F64.ofInt b) (F64.ofInt a) ≠ none ∧
      (∀ q, F64.div (F64.ofInt b) (F64.ofInt a) = some q → F64.mul q (F64.ofNat 100) = p) ∧
      p.neg = false ∧ 0 ≤ p.val ∧
      100 * (b : ℚ) - 1 < p.val * a ∧ p.val * a < 100 * (b : ℚ) + 1 := by
  obtain ⟨hbn, hbv⟩ := F64.ofInt_val b hb.le (by omega)
  obtain ⟨han, hav⟩ := F64.ofInt_val a (by omega) (by omega)
  have hbq : (0 : ℚ) < (b : ℚ) := by exact_mod_cast hb
  have haq : (0 : ℚ) < (a : ℚ) := by exact_mod_cast (by omega : (0 : Int) < a)
  have hbq2 : (b : ℚ) ≤ 35184372088830 := by
    have : b ≤ 35184372088830 := by omega
    exact_mod_cast this
  obtain ⟨q, hq, hqn, hqerr⟩ := F64.div_val (F64.ofInt b) (F64.ofInt a) hbn han
    (by rw [hbv]; exact hbq) (by rw [hav]; exact haq)
  rw [hbv, hav] at hqerr
  set X : ℚ := (b : ℚ) / a with hX
  have hXpos : 0 < X := div_pos hbq haq
  have hXa : X * a = b := by rw [hX]; field_simp
  obtain ⟨hq1, hq2⟩ := abs_le.mp hqerr
  have hqpos : 0 < q.val := by
    norm_num at hq1
    linarith
  obtain ⟨hcn, hcv⟩ := F64.ofNat_val 100 (by norm_num)
  obtain ⟨hpn, hperr, _⟩ := F64.mul_val q (F64.ofNat 100) hqn hcn hqpos
    (by rw [hcv]; norm_num)
  rw [hcv] at hperr
  obtain ⟨hp1, hp2⟩ := abs_le.mp hperr
  refine ⟨F64.mul q (F64.ofNat 100), by rw [hq]; simp, ?_, hpn, ?_, ?_, ?_⟩
  · intro q2 hq2eq
    rw [hq] at hq2eq
    simp only [Option.some.injEq] at hq2eq
    rw [hq2eq]
  · norm_num at hp1
    linarith
  · have h1 : (100 - 1 / 2 ^ 45) * X ≤ (F64.mul q (F64.ofNat 100)).val := by
      norm_num at hq1 hp1 ⊢
      linarith
    have h2 := mul_le_mul_of_nonneg_right h1 haq.le
    rw [mul_assoc, hXa] at h2
    norm_num at h2
    linarith
  · have h1 : (F64.mul q (F64.ofNat 100)).val ≤ (100 + 1 / 2 ^ 45) * X := by
      norm_num at hq2 hp2 ⊢
      linarith
    have h2 := mul_le_mul_of_nonneg_right h1 haq.le
    rw [mul_assoc, hXa] at h2
    norm_num at h2
    linarith

theorem gasLimitRatio_spec (a b : Int) (hb : 0 < b) (hab : b < a) (ha : a < 2 ^ 45) :
    ∃ ρ : Nat, gasLimitRatio a b = some (ρ : Int) ∧ ρ ≤ 99 ∧
      ((ρ : Int) = 100 * b / a ∨ (a ∣ 100 * b ∧ (ρ : Int) = 100 * b / a - 1)) := by
  obtain ⟨p, hdiv, hmul, hpn, hp0, hlo, hhi⟩ := ratio_error a b hb hab ha
  have ha0 : 0 < a := by omega
  have haq : (0 : ℚ) < (a : ℚ) := by exact_mod_cast ha0
  have hratio : gasLimitRatio a b = F64.toInt64 p := by
    unfold gasLimitRatio
    cases hq : F64.div (F64.ofInt b) (F64.ofInt a) with
    | none => exact absurd hq hdiv
    | some q => simp only [hmul q hq]
  rw [hratio]
  -- quotient and remainder of `100 * b` by `a`
  have hdm := Int.ediv_add_emod (100 * b) a
  have hm0 := Int.emod_nonneg (100 * b) (by omega : a ≠ 0)
  have hm1 := Int.emod_lt_of_pos (100 * b) ha0
  have hr0 : 0 ≤ 100 * b / a := Int.ediv_nonneg (by omega) (by omega)
  have hr99 : 100 * b / a ≤ 99 := by
    have : 100 * b / a < 100 := Int.ediv_lt_of_lt_mul ha0 (by omega)
    omega
  obtain ⟨r, hr⟩ := Int.eq_ofNat_of_zero_le hr0
  have hrq : (100 : ℚ) * b = a * (r : ℚ) + ((100 * b % a : Int) : ℚ) := by
    have : (100 : Int) * b = a * (r : Int) + 100 * b % a := by rw [← hr]; exact hdm.symm
    exact_mod_cast this
  have hgq0 : (0 : ℚ) ≤ ((100 * b % a : Int) : ℚ) := by exact_mod_cast hm0
  have hgq1 : ((100 * b % a : Int) : ℚ) + 1 ≤ a := by
    have : 100 * b % a + 1 ≤ a := by omega
    exact_mod_cast this
  have hupper : p.val < (r : ℚ) + 1 := by
    have : p.val * a < ((r : ℚ) + 1) * a := by nlinarith
    exact lt_of_mul_lt_mul_right this haq.le
  by_cases hg : 100 * b % a = 0
  · -- `a` divides `100 * b`
    have hdvd : a ∣ 100 * b := Int.dvd_of_emod_eq_zero hg
    have hgq : ((100 * b % a : Int) : ℚ) = 0 := by rw [hg]; simp
    have hr1 : 1 ≤ r := by
      have hprod : a * (r : Int) + 0 = 100 * b := by rw [← hg, ← hr]; exact hdm
      rcases Nat.eq_zero_or_pos r with h | h
      · subst h
        simp at hprod
        omega
      · exact h
    by_cases hge : (r : ℚ) ≤ p.val
    · refine ⟨r, F64.toInt64_eq p hpn r (by omega) hge hupper, by omega, Or.inl hr.symm⟩
    · have hlower : ((r - 1 : Nat) : ℚ) ≤ p.val := by
        have hc : ((r - 1 : Nat) : ℚ) = (r : ℚ) - 1 := by
          rw [Nat.cast_sub hr1]; simp
        rw [hc]
        have : ((r : ℚ) - 1) * a < p.val * a := by nlinarith
        exact (lt_of_mul_lt_mul_right this haq.le).le
      have hup2 : p.val < ((r - 1 : Nat) : ℚ) + 1 := by
        have hc : ((r - 1 : Nat) : ℚ) = (r : ℚ) - 1 := by
          rw [Nat.cast_sub hr1]; simp
        rw [hc]
        linarith
      refine ⟨r - 1, F64.toInt64_eq p hpn (r - 1) (by omega) hlower hup2, by omega,
        Or.inr ⟨hdvd, ?_⟩⟩
      omega
  · have hg1 : (1 : ℚ) ≤ ((100 * b % a : Int) : ℚ) := by
      have : 1 ≤ 100 * b % a := by omega
      exact_mod_cast this
    have hlower : (r : ℚ) ≤ p.val := by
      have : (r : ℚ) * a < p.val * a := by nlinarith
      exact (lt_of_mul_lt_mul_right this haq.le).le
    exact ⟨r, F64.toInt64_eq p hpn r (by omega) hlower hupper, by omega, Or.inl hr.symm⟩

theorem gasLimitRatio_zero (a : Int) (ha0 : 0 < a) (ha : a < 2 ^ 45) :
    gasLimitRatio a 0 = some 0 := by
  obtain ⟨han, hav⟩ := F64.ofInt_val a (by omega) (by omega)
  have ham : 0 < (F64.ofInt a).m :=
    F64.m_pos_of_val_pos _ han (by rw [hav]; exact_mod_cast ha0)
  have h0 : F64.ofInt 0 = ⟨false, 0, 0⟩ := by decide
  unfold gasLimitRatio F64.div
  rw [if_neg (by omega), h0]
  simp only [round53, if_true, Bool.false_xor, han]
  decide

theorem reCalculateGasLimit_gt (a b : Int) (G ρ : Nat) (hab : b < a)
    (hratio : gasLimitRatio a b = some (ρ : Int)) (hρ : ρ ≤ 99) (hG : G < 2 ^ 57) :
    reCalculateGasLimit a b G = some (ρ * G / 100) := by
  unfold reCalculateGasLimit
  simp only
  rw [if_neg (by omega), hratio]
  simp only
  have h1 : toUint64 (ρ : Int) = ρ := by
    unfold toUint64
    omega
  have h2 : ρ * G ≤ 99 * G := Nat.mul_le_mul_right G hρ
  rw [h1, Nat.mod_eq_of_lt (by omega)]

set_option maxRecDepth 100000 in
theorem ratio_target_divisors :
    ∀ r : Fin 100, 0 < r.val → (10 ^ 12 : Int) % (r.val : Int) = 0 →
      gasLimitRatio ((10 ^ 12 : Int) / (r.val : Int)) (10 ^ 10) = some (r.val : Int) := by
  decide

theorem gasLimitRatio_target (a : Int) (hab : 10 ^ 10 < a) (ha : a < 2 ^ 45) :
    gasLimitRatio a (10 ^ 10) = some (100 * 10 ^ 10 / a) := by
  obtain ⟨ρ, hρ, h99, hcase⟩ := gasLimitRatio_spec a (10 ^ 10) (by norm_num) hab ha
  rcases hcase with h | ⟨hdvd, h⟩
  · rw [hρ, h]
  · obtain ⟨r, hr⟩ := hdvd
    have ha0 : 0 < a := by omega
    have hq : 100 * 10 ^ 10 / a = r := by
      rw [hr]; exact Int.mul_ediv_cancel_left r (by omega)
    have hr1 : 0 < r := by
      by_contra hneg
      have : a * r ≤ 0 := Int.mul_nonpos_of_nonneg_of_nonpos (by omega) (by omega)
      omega
    have hr2 : r < 100 := by
      by_contra hneg
      have : a * 100 ≤ a * r := Int.mul_le_mul_of_nonneg_left (by omega) (by omega)
      omega
    obtain ⟨n, rfl⟩ := Int.eq_ofNat_of_zero_le (by omega : 0 ≤ r)
    have hn : n < 100 := by omega
    have hmod : (10 ^ 12 : Int) % ((⟨n, hn⟩ : Fin 100).val : Int) = 0 := by
      have : (10 ^ 12 : Int) = (n : Int) * a := by rw [Int.mul_comm]; rw [← hr]; norm_num
      simp only
      rw [this]
      exact Int.mul_emod_right _ _
    have hval := ratio_target_divisors ⟨n, hn⟩ (by simp only; omega) hmod
    simp only at hval
    have ha2 : (10 ^ 12 : Int) / (n : Int) = a := by
      have : (10 ^ 12 : Int) = (n : Int) * a := by rw [Int.mul_comm]; rw [← hr]; norm_num
      rw [this]
      exact Int.mul_ediv_cancel_left a (by omega)
    rw [ha2] at hval
    rw [hval, hq]

set_option maxRecDepth 100000 in
/-- C8, as amended: `reCalculateGasLimit` is `⌊101 * G / 100⌋` for `a ≤ b` and
`G < 2 ^ 46`. For `0 ≤ b < a < 2 ^ 45` and `G < 2 ^ 57` it is `⌊ρ * G / 100⌋`,
where the ratio `ρ`, computed in `float64`, is `r = ⌊100 * b / a⌋`, unless `a`
divides `100 * b`, where it is `r` or `r - 1`; for the target `b` of 10 s it
is `r`. The values of the specification come out: 1010000 and 500000. -/
theorem reCalculateGasLimit_bounded (a b : Int) (G : Nat) :
    (a ≤ b → G < 2 ^ 46 →
      (reCalculateGasLimit a b G).map Int.ofNat = some (reCalculateGasLimitSpec a b G)) ∧
    (0 ≤ b → b < a → a < 2 ^ 45 → G < 2 ^ 57 →
      (reCalculateGasLimit a b G).map Int.ofNat = some (reCalculateGasLimitSpec a b G) ∨
      (a ∣ 100 * b ∧ 0 < b ∧
        (reCalculateGasLimit a b G).map Int.ofNat = some ((100 * b / a - 1) * (G : Int) / 100))) ∧
    (b = 10 ^ 10 → b < a → a < 2 ^ 45 → G < 2 ^ 57 →
      (reCalculateGasLimit a b G).map Int.ofNat = some (reCalculateGasLimitSpec a b G)) ∧
    reCalculateGasLimit (5 * 10 ^ 9) (10 ^ 10) 1000000 = some 1010000 ∧
    reCalculateGasLimit (2 * 10 ^ 10) (10 ^ 10) 1000000 = some 500000 := by
  have hcast : ∀ ρ : Nat, Int.ofNat (ρ * G / 100) = (ρ : Int) * (G : Int) / 100 := by
    intro ρ
    simp
  refine ⟨?_, ?_, ?_, ?_, ?_⟩
  · intro hab hG
    rw [reCalculateGasLimit_le a b G hab hG]
    simp only [Option.map_some', reCalculateGasLimitSpec, if_pos hab, Option.some.injEq]
    simp
  · intro hb hab ha hG
    have hspec : reCalculateGasLimitSpec a b G = (100 * b / a) * (G : Int) / 100 := by
      unfold reCalculateGasLimitSpec
      rw [if_neg (by omega)]
    rcases lt_or_eq_of_le hb with hb0 | hb0
    · obtain ⟨ρ, hρ, h99, hcase⟩ := gasLimitRatio_spec a b hb0 hab ha
      rw [reCalculateGasLimit_gt a b G ρ hab hρ h99 hG]
      simp only [Option.map_some', hcast]
      rcases hcase with h | ⟨hdvd, h⟩
      · left; rw [hspec, h]
      · right; exact ⟨hdvd, hb0, by rw [h]⟩
    · left
      subst hb0
      rw [reCalculateGasLimit_gt a 0 G 0 hab (gasLimitRatio_zero a hab ha) (by omega) hG, hspec]
      simp
  · intro hb hab ha hG
    subst hb
    have hspec : reCalculateGasLimitSpec a (10 ^ 10) G =
        (100 * 10 ^ 10 / a) * (G : Int) / 100 := by
      unfold reCalculateGasLimitSpec
      rw [if_neg (by omega)]
    obtain ⟨ρ, hρ, h99, _⟩ := gasLimitRatio_spec a (10 ^ 10) (by norm_num) hab ha
    have hρ2 : (ρ : Int) = 100 * 10 ^ 10 / a := by
      have := gasLimitRatio_target a hab ha
      rw [hρ] at this
      exact Option.some.inj this
    rw [reCalculateGasLimit_gt a (10 ^ 10) G ρ hab hρ h99 hG]
    simp only [Option.map_some', hcast]
    rw [hspec, hρ2]
  · decide
  · decide

set_option maxRecDepth 100000 in
theorem reCalculateGasLimit_bounded_witness :
    (0 : Int) ≤ 10 ^ 10 ∧ (10 : Int) ^ 10 < 3 * 10 ^ 10 ∧ (3 : Int) * 10 ^ 10 < 2 ^ 45 ∧
    30000000 < 2 ^ 57 ∧
    reCalculateGasLimit (3 * 10 ^ 10) (10 ^ 10) 30000000 = some 9900000 ∧
    (reCalculateGasLimit (3 * 10 ^ 10) (10 ^ 10) 30000000).map Int.ofNat =
      some (reCalculateGasLimitSpec (3 * 10 ^ 10) (10 ^ 10) 30000000) :=
  ⟨by decide, by decide, by decide, by decide, by decide,
    (reCalculateGasLimit_bounded (3 * 10 ^ 10) (10 ^ 10) 30000000).2.2.1 rfl (by decide)
      (by decide) (by decide)⟩

set_option maxRecDepth 100000 in
/-- C8, counterexample: for `a = 100`, `b = 29` and `G = 100` the source
computes the ratio 28 and returns 28, where the reference definition gives
`⌊100 * 29 / 100⌋ = 29` and 29; for `a = 2`, `b = 1` and `G = 2 ^ 63` the
product `50 * G` wraps and the source returns 0, where the reference
definition gives `2 ^ 62`; for `a ≤ b` and `G = 140388150175299` the source
returns one more than `⌊101 * G / 100⌋`. -/
theorem reCalculateGasLimit_differs :
    reCalculateGasLimit 100 29 100 = some 28 ∧ reCalculateGasLimitSpec 100 29 100 = 29 ∧
    reCalculateGasLimit 2 1 (2 ^ 63) = some 0 ∧
    reCalculateGasLimitSpec 2 1 (2 ^ 63) = 2 ^ 62 ∧
    reCalculateGasLimit 1 2 140388150175299 = some 141792031677052 ∧
    reCalculateGasLimitSpec 1 2 140388150175299 = 141792031677051 := by
  decide

/-! ## The deferred cleanup of `Solo.packing` -/

theorem adoptedOrRefused_eq (err : Option AdoptError) :
    adoptedOrRefused err = (!IsGasLimitReached err && !IsTxNotAdoptableNow err) := by
  rcases err with _ | (_ | _ | _) <;> rfl

theorem adoptLoop_txsToRemove {F : Type} (adopt : F → Transaction → F × Option AdoptError)
    (pendingTxs : List Transaction) (st : Adoption F) :
    (adoptLoop adopt pendingTxs st).txsToRemove =
      st.txsToRemove ++
        ((adoptCalls adopt st.flow pendingTxs).filter (fun c => adoptedOrRefused c.2)).map
          Prod.fst := by
  induction pendingTxs generalizing st with
  | nil => simp [adoptLoop, adoptCalls]
  | cons tx rest ih =>
    unfold adoptLoop adoptCalls
    simp only
    split
    · rename_i h
      rw [ih]
      simp [List.filter_cons, adoptedOrRefused_eq, h]
    · rename_i h
      split
      · rename_i h2
        rw [ih]
        simp [List.filter_cons, adoptedOrRefused_eq, h2]
      · rename_i h2
        rw [ih]
        simp [List.filter_cons, adoptedOrRefused_eq, h, h2]

theorem adoptCalls_fst {F : Type} (adopt : F → Transaction → F × Option AdoptError)
    (flow : F) (pendingTxs : List Transaction) :
    (adoptCalls adopt flow pendingTxs).map Prod.fst = pendingTxs := by
  induction pendingTxs generalizing flow with
  | nil => rfl
  | cons tx rest ih => simp [adoptCalls, ih]

theorem packingCleanup_all (txsToRemove : List Transaction) (txPool : TxPool) :
    packingCleanup txsToRemove txPool =
      { txPool with
        all := ⟨txPool.all.objs.filter
          (fun o => decide (o.Hash ∉ txsToRemove.map (fun t => t.hash)))⟩ } := by
  induction txsToRemove generalizing txPool with
  | nil => simp [packingCleanup]
  | cons x xs ih =>
    unfold packingCleanup at ih ⊢
    rw [List.foldl_cons, ih]
    simp only [TxPool.Remove, txObjectMap.Remove, List.filter_filter, List.map_cons,
      List.mem_cons, not_or]
    congr 2
    apply List.filter_congr
    intro o _
    by_cases h1 : o.Hash = x.hash <;>
      by_cases h2 : o.Hash ∈ xs.map (fun t => t.hash) <;> simp [h1, h2]

/-- C11, as amended: the deferred cleanup of `packing` removes from the pool
exactly the transactions whose `flow.Adopt` call returned no error or an
error other than `GasLimitReached` and `TxNotAdoptableNow`: they make up
`txsToRemove`, in order, and the pool afterwards is the pool without their
hashes. A call that returned `GasLimitReached` or `TxNotAdoptableNow` puts
nothing into `txsToRemove`. A failing `Mock` leaves the pool as it was. -/
theorem packing_removed {F : Type} (mock : Except String F)
    (adopt : F → Transaction → F × Option AdoptError) (finish : F → Option String)
    (txPool : TxPool) (pendingTxs : List Transaction) :
    (∀ e, mock = .error e → (packing mock adopt finish txPool pendingTxs).2 = txPool) ∧
    (∀ flow, mock = .ok flow →
      (adoptLoop adopt pendingTxs ⟨flow, [], []⟩).txsToRemove =
        ((adoptCalls adopt flow pendingTxs).filter (fun c => adoptedOrRefused c.2)).map
          Prod.fst ∧
      (packing mock adopt finish txPool pendingTxs).2 =
        { txPool with
          all := ⟨txPool.all.objs.filter (fun o => decide (o.Hash ∉
            (adoptLoop adopt pendingTxs ⟨flow, [], []⟩).txsToRemove.map (fun t => t.hash)))⟩ } ∧
      (∀ c ∈ adoptCalls adopt flow pendingTxs,
        (c.2 = some .gasLimitReached ∨ c.2 = some .txNotAdoptableNow) →
        c ∉ (adoptCalls adopt flow pendingTxs).filter (fun c => adoptedOrRefused c.2)) ∧
      (∀ h : Nat,
        h ∉ (adoptLoop adopt pendingTxs ⟨flow, [], []⟩).txsToRemove.map (fun t => t.hash) →
        (packing mock adopt finish txPool pendingTxs).2.all.Contains h =
          txPool.all.Contains h)) := by
  refine ⟨?_, ?_⟩
  · intro e he
    rw [he]
    simp [packing, packingCleanup]
  · intro flow hf
    have hT := adoptLoop_txsToRemove adopt pendingTxs ⟨flow, [], []⟩
    simp only [List.nil_append] at hT
    have hP : (packing mock adopt finish txPool pendingTxs).2 =
        { txPool with
          all := ⟨txPool.all.objs.filter (fun o => decide (o.Hash ∉
            (adoptLoop adopt pendingTxs ⟨flow, [], []⟩).txsToRemove.map
              (fun t => t.hash)))⟩ } := by
      rw [hf]
      simp only [packing]
      rw [packingCleanup_all]
    refine ⟨hT, hP, ?_, ?_⟩
    · intro c _ hc hmem
      have := (List.mem_filter.mp hmem).2
      rcases hc with hc | hc <;> rw [hc] at this <;> simp [adoptedOrRefused] at this
    · intro h hh
      rw [hP]
      simp only [txObjectMap.Contains, List.any_filter]
      congr 1
      funext o
      by_cases ho : o.Hash = h
      · subst ho
        simp [hh]
      · simp [ho]

theorem packing_removed_witness :
    (adoptLoop demoAdopt [mkTx 2 1, mkTx 4 2, mkTx 3 1] ⟨0, [], []⟩).txsToRemove =
      [mkTx 2 1, mkTx 3 1] ∧
    (packing (.ok 0) demoAdopt (fun _ => none) demoPool
      [mkTx 2 1, mkTx 4 2, mkTx 3 1]).2.all.objs.map TxObject.Hash = [4, 6, 8] ∧
    (adoptLoop demoAdopt [mkTx 2 1, mkTx 4 2, mkTx 3 1] ⟨0, [], []⟩).txsToRemove =
      ((adoptCalls demoAdopt 0 [mkTx 2 1, mkTx 4 2, mkTx 3 1]).filter
        (fun c => adoptedOrRefused c.2)).map Prod.fst :=
  ⟨by decide, by decide,
    ((packing_removed (.ok 0) demoAdopt (fun _ => none) demoPool
      [mkTx 2 1, mkTx 4 2, mkTx 3 1]).2 0 rfl).1⟩

/-- C11, counterexample: `flow.Adopt` returns no error for the first pending
transaction, which is in the pool, and `packing` removes it from the pool;
the transactions whose call returned an error other than `GasLimitReached`
and `TxNotAdoptableNow` are none. -/
theorem packing_removes_adopted :
    adoptCalls demoAdopt 0 [mkTx 2 1, mkTx 4 2] =
      [(mkTx 2 1, none), (mkTx 4 2, some .gasLimitReached)] ∧
    ((adoptCalls demoAdopt 0 [mkTx 2 1, mkTx 4 2]).filter (fun c => refusedForGood c.2)).map
      Prod.fst = [] ∧
    (adoptLoop demoAdopt [mkTx 2 1, mkTx 4 2] ⟨0, [], []⟩).txsToRemove = [mkTx 2 1] ∧
    demoPool.all.Contains (mkTx 2 1).hash = true ∧
    (packing (.ok 0) demoAdopt (fun _ => none) demoPool
      [mkTx 2 1, mkTx 4 2]).2.all.Contains (mkTx 2 1).hash = false := by
  decide

/-! ## The count `removed` returned by `wash` -/

theorem wash_ok_removed (env : Env) (p p2 : TxPool) (r : WashReturn) (hwf : p.all.WF)
    (h : p.wash env = some (r, p2)) (herr : r.err = none) :
    ∃ toRemove executableObjs : List TxObject,
      washEnforce p.options.Limit (washTraverse env p).toRemove
        (sortTxObjsByOverallGasPriceDesc (washTraverse env p).executableObjs)
        (washTraverse env p).nonExecutableObjs = some (toRemove, executableObjs) ∧
      r.removed = (toRemove.length : Int) ∧
      p.all.Len = toRemove.length + p2.all.Len := by
  obtain ⟨_, _, _, T2, E2, hEnf, hret⟩ := wash_ok_inv env p p2 r h herr
  obtain ⟨_, _, kept, hperm, _, _⟩ := washEnforce_spec _ _ _ _ _ _ hEnf
  have hperm2 : (p.all.objs.map TxObject.Hash).Perm
      (T2.map TxObject.Hash ++ kept.map TxObject.Hash) := by
    rw [← List.map_append]
    refine (washTraverse_perm env p).trans ?_
    rw [← List.map_append, ← List.map_append]
    refine List.Perm.trans ?_ (hperm.map _)
    refine List.Perm.map _ ?_
    exact (List.Perm.append_right _ ((sort_perm _).symm.append_left _))
  have hidx : (washCollect E2 ([], [], (washTraverse env p).all)).2.2.objs.map TxObject.Hash =
      p.all.objs.map TxObject.Hash := by
    rw [(washCollect_spec _ _).2]
    exact (washTraverse_spec env p).2.2.2
  obtain ⟨h1, h2, h3⟩ := washReturn_ok p T2 kept _
    (p.txFeed ++ (washCollect E2 ([], [], (washTraverse env p).all)).2.1.map
      (fun tx => ⟨tx, some true⟩))
    (washCollect E2 ([], [], (washTraverse env p).all)).1 hwf hidx hperm2
  rw [← hret] at h1 h2
  simp only at h1 h2
  exact ⟨T2, E2, hEnf, h2, by rw [h3, h1]⟩

theorem wash_err_removed (env : Env) (p p2 : TxPool) (r : WashReturn) (hwf : p.all.WF)
    (h : p.wash env = some (r, p2)) (herr : r.err ≠ none) :
    r.removed = (min ((p.all.Len : Int) - p.options.Limit).toNat p.all.Len : Nat) ∧
    p2.all.Len = p.all.Len - ((p.all.Len : Int) - p.options.Limit).toNat := by
  obtain ⟨T, index, e, hidx, hret⟩ := wash_err_inv env p p2 r hwf h herr
  obtain ⟨h1, h2⟩ := washReturn_err p T index p.txFeed e hwf hidx
  rw [← hret] at h1 h2
  simp only at h1 h2
  refine ⟨h2, ?_⟩
  have := congrArg List.length h1
  simpa [txObjectMap.Len] using this

/-- C12, as amended: on the error path `wash` returns in `removed` the number
of entries it evicts, `n - Limit` for a pool of `n > Limit ≥ 0` objects, which
is then cut to `Limit` objects: the deferred function increments the named
result after the `return` has set it to 0. On success `removed` is the number
of objects in `toRemove`, which is the number of objects the index loses. -/
theorem wash_removed_count (env : Env) (p p2 : TxPool) (r : WashReturn) (hwf : p.all.WF)
    (h : p.wash env = some (r, p2)) :
    (r.err ≠ none →
      r.removed = (p.all.Len : Int) - (p2.all.Len : Int) ∧
      (0 ≤ p.options.Limit → (p.all.Len : Int) > p.options.Limit →
        r.removed = (p.all.Len : Int) - p.options.Limit ∧
        (p2.all.Len : Int) = p.options.Limit ∧ r.removed ≠ 0)) ∧
    (r.err = none →
      r.removed = (p.all.Len : Int) - (p2.all.Len : Int) ∧
      ∃ toRemove executableObjs : List TxObject,
        washEnforce p.options.Limit (washTraverse env p).toRemove
          (sortTxObjsByOverallGasPriceDesc (washTraverse env p).executableObjs)
          (washTraverse env p).nonExecutableObjs = some (toRemove, executableObjs) ∧
        r.removed = (toRemove.length : Int)) := by
  refine ⟨?_, ?_⟩
  · intro herr
    obtain ⟨h1, h2⟩ := wash_err_removed env p p2 r hwf h herr
    refine ⟨?_, ?_⟩
    · rw [h1, h2]; omega
    · intro hl hn
      rw [h1, h2]
      refine ⟨by omega, by omega, by omega⟩
  · intro herr
    obtain ⟨T2, E2, hEnf, h2, h3⟩ := wash_ok_removed env p p2 r hwf h herr
    exact ⟨by rw [h2, h3]; push_cast; omega, T2, E2, hEnf, h2⟩

theorem wash_removed_count_witness :
    demoPool.all.WF ∧
    demoPool.wash { demoEnv with seekerErr := some "closed" } =
      some (demoWashFailed.1, demoWashFailed.2) ∧
    demoWashFailed.1.err ≠ none ∧
    demoWashFailed.1.removed = (demoPool.all.Len : Int) - (demoWashFailed.2.all.Len : Int) :=
  ⟨by decide, by decide, by decide,
    ((wash_removed_count { demoEnv with seekerErr := some "closed" } demoPool demoWashFailed.2
      demoWashFailed.1 (by decide) (by decide)).1 (by decide)).1⟩

/-- C12, counterexample: a pool of 5 objects with `Limit = 2` on which `wash`
fails with a seeker error: `wash` returns `removed = 3`, not 0, and the index
is left with 2 objects. -/
theorem wash_error_removed_not_zero :
    demoPool.all.Len = 5 ∧ demoPool.options.Limit = 2 ∧
    demoPool.wash { demoEnv with seekerErr := some "closed" } =
      some (demoWashFailed.1, demoWashFailed.2) ∧
    demoWashFailed.1.err = some "seeker: closed" ∧
    demoWashFailed.1.removed = 3 ∧ demoWashFailed.2.all.Len = 2 := by
  decide

/-! ## `isChainSynced` -/

theorem isChainSynced_eq (blockInterval now ts : Nat) (hnow : now < 2 ^ 64)
    (hts : ts < 2 ^ 64) :
    isChainSynced blockInterval now ts =
      decide ((if ts ≤ now then now - ts else ts - now) < blockInterval * 6) := by
  unfold isChainSynced
  simp only
  by_cases h : ts > now
  · rw [if_pos h, if_neg (by omega)]
  · rw [if_neg h, if_pos (by omega)]
    have : (now + 2 ^ 64 - ts) % 2 ^ 64 = now - ts := by omega
    rw [this]

/-- C13: for `uint64` timestamps `isChainSynced now ts` is true exactly when
the absolute difference of the two is strictly less than `6 * BlockInterval`,
also for `ts > now`, where the first subtraction wraps; it is symmetric in its
arguments and false at a difference of exactly `6 * BlockInterval`. -/
theorem isChainSynced_iff (blockInterval now ts : Nat) (hnow : now < 2 ^ 64)
    (hts : ts < 2 ^ 64) :
    (isChainSynced blockInterval now ts = true ↔
      |(now : Int) - (ts : Int)| < 6 * (blockInterval : Int)) ∧
    isChainSynced blockInterval now ts = isChainSynced blockInterval ts now ∧
    (now = ts + 6 * blockInterval → isChainSynced blockInterval now ts = false) ∧
    (ts = now + 6 * blockInterval → isChainSynced blockInterval now ts = false) ∧
    (now < ts → (now + 2 ^ 64 - ts) % 2 ^ 64 = 2 ^ 64 - (ts - now)) := by
  refine ⟨?_, ?_, ?_, ?_, ?_⟩
  · rw [isChainSynced_eq _ _ _ hnow hts, decide_eq_true_eq, abs_lt]
    split <;> omega
  · rw [isChainSynced_eq _ _ _ hnow hts, isChainSynced_eq _ _ _ hts hnow]
    congr 1
    apply propext
    split <;> split <;> omega
  · intro h
    rw [isChainSynced_eq _ _ _ hnow hts, decide_eq_false_iff_not]
    split <;> omega
  · intro h
    rw [isChainSynced_eq _ _ _ hnow hts, decide_eq_false_iff_not]
    split <;> omega
  · intro h
    omega

theorem isChainSynced_iff_witness :
    (1000 : Nat) < 2 ^ 64 ∧ (1059 : Nat) < 2 ^ 64 ∧
    isChainSynced 10 1000 1059 = true ∧ isChainSynced 10 1000 1060 = false ∧
    (isChainSynced 10 1000 1059 = true ↔ |((1000 : Nat) : Int) - ((1059 : Nat) : Int)| <
      6 * ((10 : Nat) : Int)) :=
  ⟨by decide, by decide, by decide, by decide,
    (isChainSynced_iff 10 1000 1059 (by decide) (by decide)).1⟩

/-! ## The snapshot of `wash` against the specification -/

theorem washExecutable_eq_eligible (env : Env) (options : Options) (o : TxObject)
    (h1 : -2 ^ 63 ≤ o.timeAdded + options.MaxLifetime)
    (h2 : o.timeAdded + options.MaxLifetime < 2 ^ 63) :
    washExecutable env options o = snapshotEligible env options o := by
  unfold washExecutable snapshotEligible
  rw [outOfLifetime_eq env options o h1 h2]
  rfl

theorem washSurvivors_eq_spec (env : Env) (p : TxPool) (hrange : p.lifetimeInRange) :
    washSurvivors env p = snapshotSurvivors env p := by
  unfold washSurvivors snapshotSurvivors
  congr 1
  apply List.filter_congr
  intro o ho
  exact washExecutable_eq_eligible env p.options o (hrange o ho).1 (hrange o ho).2

/-- C2, as amended: where `time_added + MaxLifetime` is an `int64` for every
object of the index, the snapshot returned by a wash without error is the
list of the objects whose origin is not blocked, for which not
`now > time_added + MaxLifetime`, and whose executability evaluates to true,
taken in insertion order, sorted by recomputed overall gas price descending
with ties in insertion order, cut to the first `Limit` entries and mapped to
their transactions. A pool of one such object `A` washes to `[A]` (limit at
least 1), and two such objects with prices `P1 < P2` wash to `[tx2, tx1]`
(limit at least 2), in either insertion order. -/
theorem wash_snapshot_in_range (env : Env) (p : TxPool) (hrange : p.lifetimeInRange) :
    (∀ r p2, p.wash env = some (r, p2) → r.err = none →
      ∃ S : List TxObject,
        S.Perm (snapshotSurvivors env p) ∧
        S.Sorted (fun a b => a.overallGasPrice ≥ b.overallGasPrice) ∧
        (∀ c, S.filter (fun o => o.overallGasPrice == c) =
          (snapshotSurvivors env p).filter (fun o => o.overallGasPrice == c)) ∧
        r.executables = (S.take p.options.Limit.toNat).map (fun o => o.tx)) ∧
    (∀ A, p.all.ToTxObjects = [A] → snapshotEligible env p.options A = true →
      env.newState = none → env.stateErr = none → env.seekerErr = none →
      1 ≤ p.options.Limit →
      ∃ r p2, p.wash env = some (r, p2) ∧ r.err = none ∧ r.executables = [A.tx]) ∧
    (∀ A B, (p.all.ToTxObjects = [A, B] ∨ p.all.ToTxObjects = [B, A]) →
      snapshotEligible env p.options A = true → snapshotEligible env p.options B = true →
      env.overallGasPrice A.tx < env.overallGasPrice B.tx →
      env.newState = none → env.stateErr = none → env.seekerErr = none →
      2 ≤ p.options.Limit →
      ∃ r p2, p.wash env = some (r, p2) ∧ r.err = none ∧ r.executables = [B.tx, A.tx]) := by
  obtain ⟨h1, h2, h3, _⟩ := snapshot_int64 env p
  rw [washSurvivors_eq_spec env p hrange] at h1
  refine ⟨h1, ?_, ?_⟩
  · intro A hA hx
    have hmem : A ∈ p.all.ToTxObjects := by rw [hA]; simp
    rw [← washExecutable_eq_eligible env p.options A (hrange A hmem).1 (hrange A hmem).2] at hx
    exact h2 A hA hx
  · intro A B hAB hxA hxB
    have hmA : A ∈ p.all.ToTxObjects := by rcases hAB with h | h <;> rw [h] <;> simp
    have hmB : B ∈ p.all.ToTxObjects := by rcases hAB with h | h <;> rw [h] <;> simp
    rw [← washExecutable_eq_eligible env p.options A (hrange A hmA).1 (hrange A hmA).2] at hxA
    rw [← washExecutable_eq_eligible env p.options B (hrange B hmB).1 (hrange B hmB).2] at hxB
    exact h3 A B hAB hxA hxB

theorem wash_snapshot_in_range_witness :
    demoPool.lifetimeInRange ∧
    demoPool.wash demoEnv = some (demoWashed.1, demoWashed.2) ∧ demoWashed.1.err = none ∧
    demoWashed.1.executables = [mkTx 8 3, mkTx 4 2] ∧
    ∃ S : List TxObject,
      S.Perm (snapshotSurvivors demoEnv demoPool) ∧
      S.Sorted (fun a b => a.overallGasPrice ≥ b.overallGasPrice) ∧
      (∀ c, S.filter (fun o => o.overallGasPrice == c) =
        (snapshotSurvivors demoEnv demoPool).filter (fun o => o.overallGasPrice == c)) ∧
      demoWashed.1.executables = (S.take demoPool.options.Limit.toNat).map (fun o => o.tx) :=
  ⟨by decide, by decide, by decide, by decide,
    (wash_snapshot_in_range demoEnv demoPool (by decide)).1 demoWashed.1 demoWashed.2
      (by decide) (by decide)⟩

/-- C2, counterexample: with `MaxLifetime = math.MaxInt64` the sum
`time_added + MaxLifetime` wraps in `int64` to a negative number. The pool
holds one object, added one second before the wash, of an origin that is not
blocked and executable, so by the claim it is the snapshot; `wash` returns
without error, with an empty snapshot, and removes the object. -/
theorem wash_snapshot_lifetime_overflow :
    longLifePool.all.WF ∧
    snapshotSurvivors longLifeEnv longLifePool =
      [⟨mkTx 2 1, ⟨1, 21000⟩, 10 ^ 9, false, 2⟩] ∧
    1 ≤ longLifePool.options.Limit ∧
    longLifePool.wash longLifeEnv = some (longLifeWashed.1, longLifeWashed.2) ∧
    longLifeWashed.1.err = none ∧
    longLifeWashed.1.executables = [] ∧
    longLifeWashed.1.removed = 1 ∧
    longLifeWashed.2.all.Len = 0 := by
  decide

end Thor
